import Mathlib

/-!
Shallow embedding of the `rejects` regular-expression engine
(src/nfa.rs, src/parser.rs, src/rejects.rs, src/character_sets.rs).

Modelling conventions:
* Rust `HashSet<char>` / `HashSet<usize>` are duplicate-free `List`s built by
  `insertC` / `insertS`; the code only consumes membership, emptiness and
  `any`, all of which are independent of the hash iteration order.
* The unbounded Rust recursion of `epsilon_transition` (no visited set) is
  modelled with an explicit `fuel` argument standing for the call stack:
  `none` means the recursion did not finish within that stack depth.  The
  recursive-descent parser gets the same treatment.
* Arena indexing `statelist[i]` (which would panic out of range in Rust and
  never goes out of range on the automata handled here) is modelled by
  `getSt` with the `Nil` placeholder as dummy default.
* Machine integers: `usize` indices become `Nat`, the `isize` result of
  `find_end` becomes `Int`, the `u32` error offsets become `Nat` (all values
  involved stay far below any wrap-around).
-/

set_option linter.unusedVariables false

namespace Rejects

/-- NFA states, src/nfa.rs `State` (src/parser.rs holds an identical enum). -/
inductive St where
  | Transition (inclusive : List Char) (exclusive : List Char) (out : Option Nat)
  | Split (out1 : Nat) (out2 : Option Nat)
  | Match
  | Nil
deriving DecidableEq

/-- `HashSet::insert` for char sets: add at the back when absent. -/
def insertC (c : Char) (l : List Char) : List Char := if c ∈ l then l else l ++ [c]

/-- `HashSet::insert` for state-index sets (simulation frontiers). -/
def insertS (n : Nat) (l : List Nat) : List Nat := if n ∈ l then l else l ++ [n]

/-- Arena lookup `self.statelist[i]` (panics in Rust when out of range; `Nil`
is the dummy default here, reached by no automaton built below). -/
def getSt (sl : List St) (i : Nat) : St := sl.getD i .Nil

/-- src/nfa.rs `State::set_out`: patch the single patchable successor slot
(`Transition.out` or `Split.out2`); no-op on `Match`/`Nil`. -/
def St.set_out : St → Nat → St
  | .Transition inclusive exclusive _, newout => .Transition inclusive exclusive (some newout)
  | .Split out1 _, newout => .Split out1 (some newout)
  | s, _ => s

/-- src/nfa.rs `State::transition` (lines 97-115), the predicate used by
`Rejects::find_end`: inclusive hit, exclusive miss, or both-sets-empty
wildcard. -/
def St.transition (s : St) (c : Char) : Option Nat :=
  match s with
  | .Transition inclusive exclusive out =>
      if (0 < inclusive.length ∧ c ∈ inclusive)
          ∨ (0 < exclusive.length ∧ c ∉ exclusive)
          ∨ (inclusive.length = 0 ∧ exclusive.length = 0) then out
      else none
  | _ => none

/-- src/parser.rs `State::transition` (lines 139-156), the predicate used by
`Regex::find`: identical to `St.transition` except that the both-sets-empty
wildcard disjunct is absent. -/
def St.transition_regex (s : St) (c : Char) : Option Nat :=
  match s with
  | .Transition inclusive exclusive out =>
      if (0 < inclusive.length ∧ c ∈ inclusive)
          ∨ (0 < exclusive.length ∧ c ∉ exclusive) then out
      else none
  | _ => none

/-- The `if let State::Match = ...` acceptance test closing both matchers. -/
def St.is_match_state : St → Bool
  | .Match => true
  | _ => false

/-- A state whose patchable successor slot is still unresolved (spec §3:
`Transition.out` or `Split.out2` absent). -/
def St.unres : St → Bool
  | .Transition _ _ none => true
  | .Split _ none => true
  | _ => false

/-- src/nfa.rs `Fragment`: entry point plus dangling exit points. -/
structure Fragment where
  start : Nat
  endstates : List Nat
deriving DecidableEq

namespace StateList

/-- `StateList::add_state`: push a state, return its index. -/
def add_state (sl : List St) (s : St) : List St × Nat := (sl ++ [s], sl.length)

/-- `StateList::link`: `self.states[from].set_out(to)`. -/
def link (sl : List St) (f t : Nat) : List St := sl.set f ((getSt sl f).set_out t)

/-- `for &dangler in f.endstates.iter() { self.link(dangler, t) }`. -/
def linkAll (sl : List St) (ds : List Nat) (t : Nat) : List St :=
  ds.foldl (fun acc d => link acc d t) sl

/-- `StateList::union` (src/nfa.rs lines 196-213). -/
def union (sl : List St) : Option Fragment → Option Fragment → List St × Option Fragment
  | none, _ => (sl, none)
  | some f1, none => (sl, some f1)
  | some f1, some f2 =>
      let (sl1, start) := add_state sl (.Split f1.start (some f2.start))
      (sl1, some ⟨start, f1.endstates ++ f2.endstates⟩)

/-- `StateList::concatenation`: link every dangler of `f1` to `f2.start`. -/
def concatenation (sl : List St) :
    Option Fragment → Option Fragment → List St × Option Fragment
  | none, _ => (sl, none)
  | some f1, none => (sl, some f1)
  | some f1, some f2 =>
      (linkAll sl f1.endstates f2.start, some ⟨f1.start, f2.endstates⟩)

/-- `StateList::kleene` (`*`): fresh split in front, danglers loop back to it. -/
def kleene (sl : List St) (f : Fragment) : List St × Fragment :=
  let (sl1, start) := add_state sl (.Split f.start none)
  (linkAll sl1 f.endstates start, ⟨start, [start]⟩)

/-- `StateList::question_mark` (`?`). -/
def question_mark (sl : List St) (f : Fragment) : List St × Fragment :=
  let (sl1, start) := add_state sl (.Split f.start none)
  (sl1, ⟨start, start :: f.endstates⟩)

/-- `StateList::plus` (`+`): like kleene but the fragment entry stays `f.start`. -/
def plus (sl : List St) (f : Fragment) : List St × Fragment :=
  let (sl1, splitter) := add_state sl (.Split f.start none)
  (linkAll sl1 f.endstates splitter, ⟨f.start, [splitter]⟩)

/-- `StateList::characters`: one inclusive `Transition` leaf. -/
def characters (sl : List St) (chars : List Char) : List St × Fragment :=
  let (sl1, state) := add_state sl (.Transition chars [] none)
  (sl1, ⟨state, [state]⟩)

/-- `StateList::non_characters`: one exclusive `Transition` leaf. -/
def non_characters (sl : List St) (chars : List Char) : List St × Fragment :=
  let (sl1, state) := add_state sl (.Transition [] chars none)
  (sl1, ⟨state, [state]⟩)

/-- `StateList::character`: singleton inclusive leaf. -/
def character (sl : List St) (c : Char) : List St × Fragment :=
  characters sl [c]

/-- `StateList::unary_operator`: dispatch on the postfix operator. -/
def unary_operator (sl : List St) :
    Option Fragment → Option Char → List St × Option Fragment
  | none, _ => (sl, none)
  | some frag, op =>
      if op = some '*' then
        let (sl1, f) := kleene sl frag
        (sl1, some f)
      else if op = some '?' then
        let (sl1, f) := question_mark sl frag
        (sl1, some f)
      else if op = some '+' then
        let (sl1, f) := plus sl frag
        (sl1, some f)
      else (sl, some frag)

end StateList

/-- src/parser.rs `mod character_classes`: `letters()` = a-z then A-Z
(no digits, no underscore). -/
def character_classes.letters : List Char :=
  ((List.range 26).map fun i => Char.ofNat (97 + i))
    ++ ((List.range 26).map fun i => Char.ofNat (65 + i))

/-- src/parser.rs `character_classes::digits()`. -/
def character_classes.digits : List Char :=
  (List.range 10).map fun i => Char.ofNat (48 + i)

/-- src/parser.rs `character_classes::whitespace()`. -/
def character_classes.whitespace : List Char := [' ', '\t']

/-- src/character_sets.rs `word_chars()`: a-z, A-Z, 0-9 and underscore. -/
def character_sets.word_chars : List Char :=
  ((List.range 26).map fun i => Char.ofNat (97 + i))
    ++ ((List.range 26).map fun i => Char.ofNat (65 + i))
    ++ ((List.range 10).map fun i => Char.ofNat (48 + i))
    ++ ['_']

/-- src/character_sets.rs `digits()`. -/
def character_sets.digits : List Char :=
  (List.range 10).map fun i => Char.ofNat (48 + i)

/-- src/character_sets.rs `whitespace()`. -/
def character_sets.whitespace : List Char := [' ', '\t']

/-- src/character_sets.rs `range(low, high)`: the half-open byte range
`low..high`, or `Err (low, high)` when `high < low`. -/
def character_sets.range (low high : Nat) : Except (Nat × Nat) (List Char) :=
  if high < low then .error (low, high)
  else .ok ((List.range (high - low)).map fun i => Char.ofNat (low + i))

/-! ## Automaton simulation (src/rejects.rs and src/parser.rs `Regex`) -/

/-- `epsilon_transition` (identical in src/rejects.rs lines 88-100 and
src/parser.rs lines 334-347).  The Rust code recurses through `Split`
successors with NO visited set; `fuel` models the finite call stack, and
`none` means the recursion exceeds every stack of that depth. -/
def epsilon_transition (sl : List St) : Nat → List Nat → Nat → Option (List Nat)
  | 0, _, _ => none
  | fuel + 1, newstates, state =>
      match getSt sl state with
      | .Split out1 out2 =>
          match epsilon_transition sl fuel (insertS out1 newstates) out1 with
          | none => none
          | some ns1 =>
              match out2 with
              | some out => epsilon_transition sl fuel (insertS out ns1) out
              | none => some ns1
      | _ => some newstates

/-- `character_transition`, parameterised by the transition predicate `tr`
(src/rejects.rs instantiates `St.transition`, src/parser.rs `Regex`
instantiates `St.transition_regex`; the two bodies are otherwise identical). -/
def character_transition (tr : St → Char → Option Nat) (sl : List St) (fuel : Nat)
    (newstates : List Nat) (state : Nat) (symbol : Char) : Option (List Nat) :=
  match tr (getSt sl state) symbol with
  | some out => epsilon_transition sl fuel (insertS out newstates) out
  | none => some newstates

/-- One step of the frontier: `for &state in states.iter() { character_transition(...) }`
starting from an empty `newstates`. -/
def frontier_step (tr : St → Char → Option Nat) (sl : List St) (fuel : Nat)
    (states : List Nat) (c : Char) : Option (List Nat) :=
  states.foldl
    (fun acc state =>
      match acc with
      | none => none
      | some ns => character_transition tr sl fuel ns state c)
    (some [])

/-- `states.into_iter().any(|n| if let State::Match = ...)`. -/
def any_match (sl : List St) (states : List Nat) : Bool :=
  states.any fun n => (getSt sl n).is_match_state

/-- The character loop of `Regex::find` (src/parser.rs lines 307-324). -/
def find_loop (tr : St → Char → Option Nat) (sl : List St) (fuel : Nat) :
    List Nat → List Char → Option Bool
  | states, [] => some (any_match sl states)
  | states, c :: cs =>
      match frontier_step tr sl fuel states c with
      | none => none
      | some newstates =>
          if newstates = [] then some false
          else find_loop tr sl fuel newstates cs

/-- `Regex::find` / whole-string `is_match`, generic in the transition
predicate. -/
def findG (tr : St → Char → Option Nat) (sl : List St) (start fuel : Nat)
    (s : List Char) : Option Bool :=
  match epsilon_transition sl fuel (insertS start []) start with
  | none => none
  | some states => find_loop tr sl fuel states s

/-- The character loop of `Rejects::find_end` (src/rejects.rs lines 55-66):
`i` is the `enumerate` counter, `len` the running `len` variable. -/
def find_end_loop (tr : St → Char → Option Nat) (sl : List St) (fuel : Nat) :
    List Nat → Nat → Int → List Char → Option Int
  | states, _, len, [] =>
      some (if any_match sl states then len - 1 else -1)
  | states, i, len, c :: cs =>
      match frontier_step tr sl fuel states c with
      | none => none
      | some newstates =>
          if newstates = [] then some ((i : Int) - 1)
          else find_end_loop tr sl fuel newstates (i + 1) (len + 1) cs

/-- `Rejects::find_end`, generic in the transition predicate. -/
def find_endG (tr : St → Char → Option Nat) (sl : List St) (start fuel : Nat)
    (s : List Char) : Option Int :=
  match epsilon_transition sl fuel (insertS start []) start with
  | some states => find_end_loop tr sl fuel states 0 0 s
  | none => none

/-- src/parser.rs `Regex` (same `{start, states}` shape as src/rejects.rs
`Rejects`). -/
structure Regex where
  start : Nat
  statelist : List St
deriving DecidableEq

/-- `Regex::find` (src/parser.rs lines 302-325): whole-string `is_match`. -/
def Regex.find (r : Regex) (fuel : Nat) (s : List Char) : Option Bool :=
  findG St.transition_regex r.statelist r.start fuel s

/-- `Rejects::find_end` (src/rejects.rs lines 49-79). -/
def Regex.find_end (r : Regex) (fuel : Nat) (s : List Char) : Option Int :=
  find_endG St.transition r.statelist r.start fuel s

/-! ## Spec-side reference definitions (§4.3 of the spec) -/

/-- Spec-side reference: the frontier after consuming a string, stepping an
empty frontier further as empty instead of exiting early. -/
def frontierAfter (tr : St → Char → Option Nat) (sl : List St) (fuel : Nat) :
    List Nat → List Char → Option (List Nat)
  | states, [] => some states
  | states, c :: cs =>
      match frontier_step tr sl fuel states c with
      | none => none
      | some ns => frontierAfter tr sl fuel ns cs

/-- Spec-side reference: the frontier reached from `start` after the whole
input (initial epsilon closure included). -/
def full_frontier (tr : St → Char → Option Nat) (sl : List St) (start fuel : Nat)
    (s : List Char) : Option (List Nat) :=
  match epsilon_transition sl fuel (insertS start []) start with
  | none => none
  | some states => frontierAfter tr sl fuel states s

/-- Spec-side reference, §4.3 `Transition.matches(c)` written literally as the
four-rule precedence cascade. -/
def matches_spec (inclusive exclusive : List Char) (c : Char) : Bool :=
  if inclusive ≠ [] ∧ c ∈ inclusive then true
  else if exclusive ≠ [] ∧ c ∉ exclusive then true
  else if inclusive = [] ∧ exclusive = [] then true
  else false

/-! ## The recursive-descent parser (src/parser.rs `Parser`) -/

/-- Parser state: the remaining input (`iter`), the `index` counter (bumped
only by `consume`), and the accumulated error offsets. -/
structure PS where
  input : List Char
  index : Nat
  errors : List Nat
deriving DecidableEq

/-- `self.iter.peek()`. -/
def PS.peek (p : PS) : Option Char := p.input.head?

/-- `self.iter.next()`. -/
def PS.next (p : PS) : Option Char × PS :=
  match p.input with
  | [] => (none, p)
  | c :: cs => (some c, { p with input := cs })

/-- `Parser::consume`: bump `index`, then `iter.next()`. -/
def PS.consume (p : PS) : Option Char × PS :=
  PS.next { p with index := p.index + 1 }

/-- `Parser::error_next`: record `index`, then `iter.next()`. -/
def PS.error_next (p : PS) : PS :=
  (PS.next { p with errors := p.errors ++ [p.index] }).2

/-- `Parser::error_cur`: record `index` only. -/
def PS.error_cur (p : PS) : PS :=
  { p with errors := p.errors ++ [p.index] }

/-- The `loop` inside `parse_term`'s `[` branch (src/parser.rs lines 559-577),
recursing directly on the remaining input; returns the collected class, the
remaining input and the error list.  Note the branch never consumed the `[`
itself, so the first iteration reads it. -/
def class_loop (idx : Nat) (errs : List Nat) :
    List Char → List Char → Option (List Char) × List Char × List Nat
  | chars, [] => (none, [], errs ++ [idx])
  | chars, c :: rest =>
      if c = ']' then (some chars, rest, errs)
      else if c = '\\' then
        match rest with
        | [] => (none, [], errs ++ [idx])
        | e :: r2 =>
            if e = ']' then class_loop idx errs (insertC ']' chars) r2
            else if e = '\\' then class_loop idx errs (insertC '\\' chars) r2
            else (none, r2, errs ++ [idx])
      else class_loop idx errs (insertC c chars) rest

/-- `Parser::parse_term` (src/parser.rs lines 522-594).  Note two source
quirks kept verbatim: `.` falls into the final literal branch (it is NOT a
wildcard here), and the `[` branch checks `peek()` for `^` while `[` is still
the next character, then lets the loop consume the `[` into the class. -/
def parse_term (p : PS) (sl : List St) : Option Fragment × PS × List St :=
  match p.peek with
  | none => (none, p.error_next, sl)
  | some c =>
      if c = '(' ∨ c = ')' ∨ c = '*' ∨ c = '?' ∨ c = '+' ∨ c = '|' then
        (none, p.error_next, sl)
      else if c = '\\' then
        let p1 := (p.consume).2
        let (nc, p2) := p1.next
        match nc with
        | some e =>
            if e = 'w' then
              let (sl1, f) := StateList.characters sl character_classes.letters
              (some f, p2, sl1)
            else if e = 'W' then
              let (sl1, f) := StateList.non_characters sl character_classes.letters
              (some f, p2, sl1)
            else if e = 'd' then
              let (sl1, f) := StateList.characters sl character_classes.digits
              (some f, p2, sl1)
            else if e = 'D' then
              let (sl1, f) := StateList.non_characters sl character_classes.digits
              (some f, p2, sl1)
            else if e = 's' then
              let (sl1, f) := StateList.characters sl character_classes.whitespace
              (some f, p2, sl1)
            else if e = 'S' then
              let (sl1, f) := StateList.non_characters sl character_classes.whitespace
              (some f, p2, sl1)
            else if e = '*' then
              let (sl1, f) := StateList.character sl '*'
              (some f, p2, sl1)
            else if e = '+' then
              let (sl1, f) := StateList.character sl '+'
              (some f, p2, sl1)
            else if e = '\\' then
              let (sl1, f) := StateList.character sl '\\'
              (some f, p2, sl1)
            else if e = '(' then
              let (sl1, f) := StateList.character sl '('
              (some f, p2, sl1)
            else if e = ')' then
              let (sl1, f) := StateList.character sl ')'
              (some f, p2, sl1)
            else if e = '.' then
              let (sl1, f) := StateList.character sl '.'
              (some f, p2, sl1)
            else (none, p2.error_cur, sl)
        | none => (none, p2.error_cur, sl)
      else if c = '[' then
        let (negate, p1) :=
          if p.peek = some '^' then (true, (p.next).2) else (false, p)
        let (res, rest, errs) := class_loop p1.index p1.errors [] p1.input
        let p2 : PS := { input := rest, index := p1.index, errors := errs }
        match res with
        | none => (none, p2, sl)
        | some chars =>
            if negate then
              let (sl1, f) := StateList.non_characters sl chars
              (some f, p2, sl1)
            else
              let (sl1, f) := StateList.characters sl chars
              (some f, p2, sl1)
      else
        let p1 := (p.consume).2
        let (sl1, f) := StateList.character sl c
        (some f, p1, sl1)

/-- `Parser::parse_unaryop` (src/parser.rs lines 490-499): consume a postfix
`* ? +` if present (all other arms of the source `match` return `None`). -/
def parse_unaryop (p : PS) : Option Char × PS :=
  match p.peek with
  | none => (none, p)
  | some c =>
      if c = '?' ∨ c = '*' ∨ c = '+' then p.consume
      else (none, p)

/-- Tags for the six mutually recursive grammar productions of the parser. -/
inductive Rule where
  | union | unionP | concat | concatP | unary | paren
deriving DecidableEq

/-- The mutually recursive productions `parse_union`, `parse_union_prime`,
`parse_concat`, `parse_concat_prime`, `parse_unary`, `parse_paren`
(src/parser.rs lines 392-520), folded into a single function on a rule tag so
the shared `fuel` (modelling the Rust call stack) decreases structurally.
Source `match` arms with identical bodies (e.g. `Some('(')` and the
catch-all) are merged into a single branch. -/
def run : Nat → Rule → PS → List St → Option (Option Fragment × PS × List St)
  | 0, _, _, _ => none
  | fuel + 1, .union, p, sl =>
      match p.peek with
      | none => some (none, p.error_next, sl)
      | some c =>
          if c = ')' ∨ c = '*' ∨ c = '?' ∨ c = '+' ∨ c = '|' then
            some (none, p.error_next, sl)
          else
            match run fuel .concat p sl with
            | none => none
            | some (l, p1, sl1) =>
                match run fuel .unionP p1 sl1 with
                | none => none
                | some (r, p2, sl2) =>
                    let (sl3, res) := StateList.union sl2 l r
                    some (res, p2, sl3)
  | fuel + 1, .unionP, p, sl =>
      match p.peek with
      | none => some (none, p, sl)
      | some c =>
          if c = ')' then some (none, p, sl)
          else if c = '|' then run fuel .union (p.consume).2 sl
          else some (none, p.error_next, sl)
  | fuel + 1, .concat, p, sl =>
      match p.peek with
      | none => some (none, p.error_next, sl)
      | some c =>
          if c = ')' ∨ c = '*' ∨ c = '?' ∨ c = '+' ∨ c = '|' then
            some (none, p.error_next, sl)
          else
            match run fuel .unary p sl with
            | none => none
            | some (l, p1, sl1) =>
                match run fuel .concatP p1 sl1 with
                | none => none
                | some (r, p2, sl2) =>
                    let (sl3, res) := StateList.concatenation sl2 l r
                    some (res, p2, sl3)
  | fuel + 1, .concatP, p, sl =>
      match p.peek with
      | none => some (none, p, sl)
      | some c =>
          if c = ')' ∨ c = '|' then some (none, p, sl)
          else if c = '*' ∨ c = '?' ∨ c = '+' then some (none, p.error_next, sl)
          else run fuel .concat p sl
  | fuel + 1, .unary, p, sl =>
      match p.peek with
      | none => some (none, p.error_next, sl)
      | some c =>
          if c = ')' ∨ c = '*' ∨ c = '?' ∨ c = '+' ∨ c = '|' then
            some (none, p.error_next, sl)
          else
            match run fuel .paren p sl with
            | none => none
            | some (l, p1, sl1) =>
                let (r, p2) := parse_unaryop p1
                let (sl2, res) := StateList.unary_operator sl1 l r
                some (res, p2, sl2)
  | fuel + 1, .paren, p, sl =>
      match p.peek with
      | none => some (none, p.error_next, sl)
      | some c =>
          if c = ')' ∨ c = '*' ∨ c = '?' ∨ c = '+' ∨ c = '|' then
            some (none, p.error_next, sl)
          else if c = '(' then
            match run fuel .union (p.consume).2 sl with
            | none => none
            | some (frag, p1, sl1) =>
                match p1.peek with
                | some c2 =>
                    if c2 = ')' then some (frag, (p1.consume).2, sl1)
                    else some (none, p1.error_next, sl1)
                | none => some (none, p1.error_next, sl1)
          else some (parse_term p sl)

/-- Result of `Parser::parse` (Rust `Result<Regex, Vec<u32>>`). -/
inductive ParseResult where
  | ok (r : Regex)
  | err (errors : List Nat)
deriving DecidableEq

/-- `Parser::parse` (src/parser.rs lines 357-382), additionally returning the
parser's final error list (second component) so that "the error list at the
end of parsing" can be stated; `fuel` bounds the recursion depth. -/
def parseFull (s : List Char) (fuel : Nat) : Option (ParseResult × List Nat) :=
  match run fuel .union ⟨s, 0, []⟩ [] with
  | none => none
  | some (some frag, p1, sl1) =>
      let (sl2, match_state) := StateList.add_state sl1 .Match
      let sl3 := StateList.linkAll sl2 frag.endstates match_state
      let (nx, p2) := p1.next
      let p3 := match nx with | some _ => p2.error_next | none => p2
      if 0 < p3.errors.length then some (.err p3.errors, p3.errors)
      else some (.ok ⟨frag.start, sl3⟩, p3.errors)
  | some (none, p1, sl1) =>
      let (nx, p2) := p1.next
      let p3 := match nx with | some _ => p2.error_next | none => p2
      if 0 < p3.errors.length then some (.err p3.errors, p3.errors)
      else some (.err [], p3.errors)

/-- `Parser::parse` proper. -/
def parse (s : List Char) (fuel : Nat) : Option ParseResult :=
  (parseFull s fuel).map Prod.fst

/-- The automaton the parser builds for the pattern `(a*)*`: the two nested
kleene splits form an epsilon cycle 1 → 2 → 1. -/
def slStarStar : List St :=
  [.Transition ['a'] [] (some 1), .Split 0 (some 2), .Split 1 (some 3), .Match]

/-- The automaton the parser builds for the pattern `a|abc`. -/
def slUnionABC : List St :=
  [.Transition ['a'] [] (some 5), .Transition ['a'] [] (some 2),
   .Transition ['b'] [] (some 3), .Transition ['c'] [] (some 5),
   .Split 0 (some 1), .Match]

/-- The automaton the parser builds for the pattern `abc`. -/
def slABC : List St :=
  [.Transition ['a'] [] (some 1), .Transition ['b'] [] (some 2),
   .Transition ['c'] [] (some 3), .Match]

/-- The automaton the parser builds for the pattern `ab`. -/
def slAB : List St :=
  [.Transition ['a'] [] (some 1), .Transition ['b'] [] (some 2), .Match]

/-- The automaton the parser builds for the pattern `a`. -/
def slA : List St := [.Transition ['a'] [] (some 1), .Match]

end Rejects

namespace Rejects

/-! ## Theorems -/

/-- The epsilon closure of states 1 and 2 of the `(a*)*` automaton never
finishes, whatever the stack depth: the two kleene splits point at each other. -/
theorem eps_diverges_slStarStar : ∀ fuel acc,
    epsilon_transition slStarStar fuel acc 1 = none ∧
    epsilon_transition slStarStar fuel acc 2 = none := by
  intro fuel
  induction fuel with
  | zero => intro acc; exact ⟨rfl, rfl⟩
  | succ n ih =>
      intro acc
      constructor
      · rw [epsilon_transition]
        have hg : getSt slStarStar 1 = .Split 0 (some 2) := rfl
        rw [hg]
        dsimp only
        cases n with
        | zero => rfl
        | succ m =>
            have h0 : epsilon_transition slStarStar (m + 1) (insertS 0 acc) 0 =
                some (insertS 0 acc) := by
              rw [epsilon_transition]; rfl
            rw [h0]
            exact (ih _).2
      · rw [epsilon_transition]
        have hg : getSt slStarStar 2 = .Split 1 (some 3) := rfl
        rw [hg]
        dsimp only
        rw [(ih _).1]

/-- C2: the spec claims `is_match`/`find_end` are total on every finished
automaton, including the epsilon cycles produced by `*` and `+`.  The code is
not: the parser accepts `(a*)*` and builds `slStarStar`, whose start state
sits on a `Split` cycle, and the recursive `epsilon_transition` (which keeps
no visited set) fails to terminate there for EVERY stack depth, so both
matchers diverge on every input text, the empty text included. -/
theorem c2_matchers_diverge_on_star_star :
    parse ['(', 'a', '*', ')', '*'] 30 = some (.ok ⟨2, slStarStar⟩) ∧
    (∀ fuel acc, epsilon_transition slStarStar fuel acc 2 = none) ∧
    (∀ tr fuel s, findG tr slStarStar 2 fuel s = none) ∧
    (∀ tr fuel s, find_endG tr slStarStar 2 fuel s = none) := by
  refine ⟨by decide, fun fuel acc => (eps_diverges_slStarStar fuel acc).2, ?_, ?_⟩
  · intro tr fuel s
    rw [findG, (eps_diverges_slStarStar fuel _).2]
  · intro tr fuel s
    rw [find_endG, (eps_diverges_slStarStar fuel _).2]

/-- C5: the claim (and the crate doc in src/lib.rs) says `.` compiles to a
`Transition` with BOTH sets empty, a wildcard accepting every one-character
string.  The code's `parse_term` has no `.` arm, so `.` falls into the
literal branch: the automaton for pattern `.` carries `inclusive = ['.']`,
and `is_match "a"` is `false` where the claim requires `true`. -/
theorem c5_dot_is_literal_not_wildcard :
    parse ['.'] 9 = some (.ok ⟨0, [.Transition ['.'] [] (some 1), .Match]⟩) ∧
    Regex.find ⟨0, [.Transition ['.'] [] (some 1), .Match]⟩ 9 ['a'] = some false ∧
    Regex.find ⟨0, [.Transition ['.'] [] (some 1), .Match]⟩ 9 ['.'] = some true := by
  decide

/-- C6: the claim says `[...]` supports ranges and `^`-negation; the code's
`[` branch never consumes the `[` (so `[` itself lands in the class and the
`^` test looks at `[`), and treats `-` as an ordinary character.  Pattern
`[a-z]+` therefore matches only strings over `{[, a, -, z}` — `is_match
"hello"` is `false` (claim: `true`) — and `[^a-z]+` builds an INCLUSIVE class
containing `^`, so `is_match "123"` is `false` (claim: `true`). -/
theorem c6_class_parsed_literally :
    parse ['[', 'a', '-', 'z', ']', '+'] 20 = some (.ok ⟨0,
      [.Transition ['[', 'a', '-', 'z'] [] (some 1), .Split 0 (some 2), .Match]⟩) ∧
    Regex.find ⟨0, [.Transition ['[', 'a', '-', 'z'] [] (some 1), .Split 0 (some 2), .Match]⟩
      20 ['h', 'e', 'l', 'l', 'o'] = some false ∧
    parse ['[', '^', 'a', '-', 'z', ']', '+'] 20 = some (.ok ⟨0,
      [.Transition ['[', '^', 'a', '-', 'z'] [] (some 1), .Split 0 (some 2), .Match]⟩) ∧
    Regex.find ⟨0, [.Transition ['[', '^', 'a', '-', 'z'] [] (some 1), .Split 0 (some 2), .Match]⟩
      20 ['1', '2', '3'] = some false := by
  decide

/-- C7: src/nfa.rs `State::transition` computes exactly the four-rule
precedence cascade of spec §4.3 (`matches_spec`): inclusive hit, else
exclusive miss, else both-empty wildcard, else no match; when the cascade
matches, the transition yields its `out` slot. -/
theorem c7_transition_is_spec_cascade :
    ∀ (inclusive exclusive : List Char) (out : Option Nat) (c : Char),
      St.transition (.Transition inclusive exclusive out) c =
        if matches_spec inclusive exclusive c then out else none := by
  intro inc exc out c
  show (if (0 < inc.length ∧ c ∈ inc) ∨ (0 < exc.length ∧ c ∉ exc)
      ∨ (inc.length = 0 ∧ exc.length = 0) then out else none) = _
  rw [matches_spec]
  by_cases hA : inc ≠ [] ∧ c ∈ inc <;>
    by_cases hB : exc ≠ [] ∧ c ∉ exc <;>
      by_cases hC : inc = [] ∧ exc = [] <;>
        simp_all [List.length_pos, List.length_eq_zero]

/-- C8: the claim maps `\w` to the word-character class of the
character-class library (src/character_sets.rs `word_chars()`, which contains
digits and the underscore, matching the PCRE2 behaviour the crate doc in
src/lib.rs promises).  The code's escape branch instead uses the private
`character_classes::letters()` of src/parser.rs, which is a-z, A-Z only:
compiling `\w` and matching `"_"` or `"0"` yields `false` although both are
word characters of the library class. -/
theorem c8_escape_w_not_library_word_class :
    parse ['\\', 'w'] 9 =
      some (.ok ⟨0, [.Transition character_classes.letters [] (some 1), .Match]⟩) ∧
    Regex.find ⟨0, [.Transition character_classes.letters [] (some 1), .Match]⟩ 9 ['_'] =
      some false ∧
    Regex.find ⟨0, [.Transition character_classes.letters [] (some 1), .Match]⟩ 9 ['0'] =
      some false ∧
    Regex.find ⟨0, [.Transition character_classes.letters [] (some 1), .Match]⟩ 9 ['q'] =
      some true ∧
    ('_' ∈ character_sets.word_chars ∧ '0' ∈ character_sets.word_chars) ∧
    ('_' ∉ character_classes.letters ∧ '0' ∉ character_classes.letters) := by
  decide

end Rejects

namespace Rejects

/-! ## Frontier lemmas for the two matchers -/

theorem frontier_step_nil (tr : St → Char → Option Nat) (sl : List St) (fuel : Nat) (c : Char) :
    frontier_step tr sl fuel [] c = some [] := rfl

theorem frontierAfter_nil (tr : St → Char → Option Nat) (sl : List St) (fuel : Nat) :
    ∀ cs, frontierAfter tr sl fuel [] cs = some [] := by
  intro cs
  induction cs with
  | nil => rfl
  | cons c cs ih =>
      rw [frontierAfter, frontier_step_nil]
      exact ih

theorem mem_insertS {x : Nat} {l : List Nat} (h : x ∈ l) (n : Nat) : x ∈ insertS n l := by
  rw [insertS]
  split
  · exact h
  · exact List.mem_append_left _ h

theorem self_mem_insertS (n : Nat) (l : List Nat) : n ∈ insertS n l := by
  rw [insertS]
  split
  · assumption
  · exact List.mem_append_right _ (List.mem_singleton.mpr rfl)

/-- The epsilon closure only ever grows its accumulator. -/
theorem eps_mem (sl : List St) : ∀ fuel acc st r,
    epsilon_transition sl fuel acc st = some r → ∀ x, x ∈ acc → x ∈ r := by
  intro fuel
  induction fuel with
  | zero => intro acc st r h; cases h
  | succ n ih =>
      intro acc st r h x hx
      rw [epsilon_transition] at h
      split at h
      · rename_i o1 o2 hg
        cases h1 : epsilon_transition sl n (insertS o1 acc) o1 with
        | none => rw [h1] at h; cases h
        | some ns1 =>
            rw [h1] at h
            have hx1 : x ∈ ns1 := ih _ _ _ h1 x (mem_insertS hx o1)
            cases o2 with
            | none => cases h; exact hx1
            | some o => exact ih _ _ _ h x (mem_insertS hx1 o)
      · cases h; exact hx

/-- `Regex::find`'s loop refines the spec-side frontier: when it finishes, its
answer is exactly "the final frontier contains a `Match` state". -/
theorem find_loop_frontier (tr : St → Char → Option Nat) (sl : List St) (fuel : Nat) :
    ∀ cs states b, find_loop tr sl fuel states cs = some b →
      ∃ F, frontierAfter tr sl fuel states cs = some F ∧ b = any_match sl F := by
  intro cs
  induction cs with
  | nil =>
      intro states b h
      rw [find_loop] at h
      cases h
      exact ⟨states, rfl, rfl⟩
  | cons c cs ih =>
      intro states b h
      rw [find_loop] at h
      rw [frontierAfter]
      cases hstep : frontier_step tr sl fuel states c with
      | none => rw [hstep] at h; cases h
      | some ns =>
          rw [hstep] at h
          dsimp only at h ⊢
          by_cases hns : ns = []
          · subst hns
            rw [if_pos rfl] at h
            cases h
            exact ⟨[], frontierAfter_nil tr sl fuel cs, rfl⟩
          · rw [if_neg hns] at h
            exact ih ns b h

/-- C1: whole-string matching is anchored at both ends.  First conjunct, for
every automaton and every transition predicate: whenever `Regex::find`
finishes, it returns true exactly when a `Match` state sits in the frontier
left after consuming the ENTIRE input (an input on which the frontier died
leaves the empty final frontier, hence false).  The remaining conjuncts
settle the quoted example: the automaton parsed from the literal pattern
`abc` accepts `abc` and rejects `ab`, `abcd`, `abd`. -/
theorem c1_is_match_is_anchored_both_ends :
    (∀ tr sl start fuel s b, findG tr sl start fuel s = some b →
        ∃ F, full_frontier tr sl start fuel s = some F ∧ b = any_match sl F) ∧
    parse ['a', 'b', 'c'] 30 = some (.ok ⟨0, slABC⟩) ∧
    Regex.find ⟨0, slABC⟩ 30 ['a', 'b', 'c'] = some true ∧
    Regex.find ⟨0, slABC⟩ 30 ['a', 'b'] = some false ∧
    Regex.find ⟨0, slABC⟩ 30 ['a', 'b', 'c', 'd'] = some false ∧
    Regex.find ⟨0, slABC⟩ 30 ['a', 'b', 'd'] = some false := by
  refine ⟨?_, by decide, by decide, by decide, by decide, by decide⟩
  intro tr sl start fuel s b h
  rw [findG] at h
  rw [full_frontier]
  cases heps : epsilon_transition sl fuel (insertS start []) start with
  | none => rw [heps] at h; cases h
  | some states =>
      rw [heps] at h
      dsimp only at h ⊢
      exact find_loop_frontier tr sl fuel s states b h

theorem c1_witness :
    ∃ F, full_frontier St.transition_regex slABC 0 30 ['a', 'b', 'c'] = some F ∧
      true = any_match slABC F :=
  c1_is_match_is_anchored_both_ends.1 St.transition_regex slABC 0 30 ['a', 'b', 'c'] true
    c1_is_match_is_anchored_both_ends.2.2.1

end Rejects

namespace Rejects

/-! ## `find_end` loop lemmas -/

/-- Range of the values `find_end`'s loop can return when entered with
counter `i`. -/
theorem find_end_loop_range (tr : St → Char → Option Nat) (sl : List St) (fuel : Nat) :
    ∀ cs states (i : Nat) (k : Int),
      find_end_loop tr sl fuel states i (i : Int) cs = some k →
      k = -1 ∨ ((i : Int) - 1 ≤ k ∧ k ≤ (i : Int) + cs.length - 1) := by
  intro cs
  induction cs with
  | nil =>
      intro states i k h
      rw [find_end_loop] at h
      split at h <;> cases h
      · right; constructor <;> simp
      · left; rfl
  | cons c cs ih =>
      intro states i k h
      rw [find_end_loop] at h
      cases hstep : frontier_step tr sl fuel states c with
      | none => rw [hstep] at h; cases h
      | some ns =>
          rw [hstep] at h
          dsimp only at h
          by_cases hns : ns = []
          · rw [if_pos hns] at h
            cases h
            right
            constructor
            · omega
            · simp only [List.length_cons]
              push_cast
              omega
          · rw [if_neg hns] at h
            have hcast : ((i : Int) + 1) = ((i + 1 : Nat) : Int) := by push_cast; ring
            rw [hcast] at h
            rcases ih ns (i + 1) k h with h1 | ⟨h2, h3⟩
            · left; exact h1
            · right
              simp only [List.length_cons]
              push_cast at h2 h3 ⊢
              omega

/-- When `find_end`'s loop answers `k ≥ 0`, the frontier after the first
`k - i + 1` remaining characters is still non-empty. -/
theorem find_end_loop_viable (tr : St → Char → Option Nat) (sl : List St) (fuel : Nat) :
    ∀ cs states (i : Nat) (k : Int),
      states ≠ [] →
      find_end_loop tr sl fuel states i (i : Int) cs = some k →
      0 ≤ k →
      ∃ F, frontierAfter tr sl fuel states (cs.take (k - i + 1).toNat) = some F ∧ F ≠ [] := by
  intro cs
  induction cs with
  | nil =>
      intro states i k hne h hk
      rw [find_end_loop] at h
      split at h <;> cases h
      · have h0 : ((i : Int) - 1 - i + 1).toNat = 0 := by omega
        rw [h0]
        exact ⟨states, rfl, hne⟩
      · omega
  | cons c cs ih =>
      intro states i k hne h hk
      rw [find_end_loop] at h
      cases hstep : frontier_step tr sl fuel states c with
      | none => rw [hstep] at h; cases h
      | some ns =>
          rw [hstep] at h
          dsimp only at h
          by_cases hns : ns = []
          · rw [if_pos hns] at h
            cases h
            have h0 : ((i : Int) - 1 - i + 1).toNat = 0 := by omega
            rw [h0]
            exact ⟨states, rfl, hne⟩
          · rw [if_neg hns] at h
            have hcast : ((i : Int) + 1) = ((i + 1 : Nat) : Int) := by push_cast; ring
            rw [hcast] at h
            have hki : (i : Int) ≤ k := by
              rcases find_end_loop_range tr sl fuel cs ns (i + 1) k h with h1 | ⟨h2, h3⟩
              · omega
              · push_cast at h2; omega
            have htn : (k - (i : Int) + 1).toNat = (k - ((i + 1 : Nat) : Int) + 1).toNat + 1 := by
              push_cast
              omega
            rw [htn, List.take_succ_cons, frontierAfter, hstep]
            dsimp only
            exact ih ns (i + 1) k hns h hk

/-- ... and that position is the longest one with a non-empty frontier. -/
theorem find_end_loop_longest (tr : St → Char → Option Nat) (sl : List St) (fuel : Nat) :
    ∀ cs states (i : Nat) (k : Int),
      find_end_loop tr sl fuel states i (i : Int) cs = some k →
      0 ≤ k →
      ∀ m, m ≤ cs.length →
        (∃ F, frontierAfter tr sl fuel states (cs.take m) = some F ∧ F ≠ []) →
        (m : Int) ≤ k - i + 1 := by
  intro cs
  induction cs with
  | nil =>
      intro states i k h hk m hm hv
      rw [find_end_loop] at h
      simp only [List.length_nil] at hm
      split at h <;> cases h
      · omega
      · omega
  | cons c cs ih =>
      intro states i k h hk m hm hv
      rw [find_end_loop] at h
      cases hstep : frontier_step tr sl fuel states c with
      | none => rw [hstep] at h; cases h
      | some ns =>
          rw [hstep] at h
          dsimp only at h
          by_cases hns : ns = []
          · rw [if_pos hns] at h
            cases h
            match m with
            | 0 => omega
            | m' + 1 =>
                exfalso
                rw [List.take_succ_cons, frontierAfter, hstep] at hv
                dsimp only at hv
                rw [hns, frontierAfter_nil] at hv
                rcases hv with ⟨F, hF, hFne⟩
                cases hF
                exact hFne rfl
          · rw [if_neg hns] at h
            have hcast : ((i : Int) + 1) = ((i + 1 : Nat) : Int) := by push_cast; ring
            rw [hcast] at h
            match m with
            | 0 =>
                have hki : (i : Int) ≤ k := by
                  rcases find_end_loop_range tr sl fuel cs ns (i + 1) k h with h1 | ⟨h2, h3⟩
                  · omega
                  · push_cast at h2; omega
                push_cast
                omega
            | m' + 1 =>
                rw [List.take_succ_cons, frontierAfter, hstep] at hv
                dsimp only at hv
                have := ih ns (i + 1) k h hk m' (by simpa using hm) hv
                push_cast at this ⊢
                omega

/-- At depth `i ≥ 1` the loop answers `-1` exactly when it runs through the
whole remaining input with a frontier that stays alive but holds no `Match`. -/
theorem find_end_loop_neg_one (tr : St → Char → Option Nat) (sl : List St) (fuel : Nat) :
    ∀ cs states (i : Nat) (k : Int),
      1 ≤ i → states ≠ [] →
      find_end_loop tr sl fuel states i (i : Int) cs = some k →
      (k = -1 ↔ ∃ F, frontierAfter tr sl fuel states cs = some F ∧ F ≠ [] ∧
          any_match sl F = false) := by
  intro cs
  induction cs with
  | nil =>
      intro states i k hi hne h
      rw [find_end_loop] at h
      split at h <;> cases h
      · rename_i hany
        constructor
        · intro habs; omega
        · rintro ⟨F, hF, hFne, hFany⟩
          rw [frontierAfter] at hF
          cases hF
          rw [hany] at hFany
          cases hFany
      · rename_i hany
        constructor
        · intro _
          exact ⟨states, rfl, hne, by simpa using hany⟩
        · intro _; rfl
  | cons c cs ih =>
      intro states i k hi hne h
      rw [find_end_loop] at h
      cases hstep : frontier_step tr sl fuel states c with
      | none => rw [hstep] at h; cases h
      | some ns =>
          rw [hstep] at h
          dsimp only at h
          by_cases hns : ns = []
          · rw [if_pos hns] at h
            cases h
            constructor
            · intro habs; omega
            · rintro ⟨F, hF, hFne, hFany⟩
              rw [frontierAfter, hstep] at hF
              dsimp only at hF
              rw [hns, frontierAfter_nil] at hF
              cases hF
              exact absurd rfl hFne
          · rw [if_neg hns] at h
            have hcast : ((i : Int) + 1) = ((i + 1 : Nat) : Int) := by push_cast; ring
            rw [hcast] at h
            have hiff := ih ns (i + 1) k (by omega) hns h
            rw [frontierAfter, hstep]
            dsimp only
            exact hiff

end Rejects

namespace Rejects

/-- C3 (counterexample): `find_end` does NOT report the last matched
character.  For the automaton of pattern `ab`, `find_end("ax") = 0` although
the length-1 prefix `"a"` is not matched (so `k ≥ 0` does not make the prefix
of length `k+1` a match); and for the automaton of pattern `a|abc`,
`find_end("ab") = -1` although the non-empty prefix `"a"` IS matched (so `-1`
does not mean "no non-empty prefix matches").  Matching is evaluated with
both transition predicates, and both automata come from real parses. -/
theorem c3_counterexample_find_end_not_match_end :
    parse ['a', 'b'] 9 = some (.ok ⟨0, slAB⟩) ∧
    Regex.find_end ⟨0, slAB⟩ 9 ['a', 'x'] = some 0 ∧
    findG St.transition slAB 0 9 ['a'] = some false ∧
    Regex.find ⟨0, slAB⟩ 9 ['a'] = some false ∧
    parse ['a', '|', 'a', 'b', 'c'] 30 = some (.ok ⟨4, slUnionABC⟩) ∧
    Regex.find_end ⟨4, slUnionABC⟩ 9 ['a', 'b'] = some (-1) ∧
    findG St.transition slUnionABC 4 9 ['a'] = some true ∧
    Regex.find ⟨4, slUnionABC⟩ 9 ['a'] = some true := by
  decide

/-- C3 (amended): what `find_end` actually reports, for every automaton,
predicate and input.  If it answers `k ≥ 0`, the prefix of length `k + 1` is
the LONGEST prefix after which the simulation frontier is still non-empty
(a viable prefix — not necessarily a matched one); it answers `-1` iff the
input is empty, or the frontier dies on the very first character, or the
frontier survives the whole input but the final frontier holds no `Match`. -/
theorem c3_amended_find_end_reports_viable_position :
    ∀ tr sl start fuel (s : List Char) (k : Int) f0,
      epsilon_transition sl fuel (insertS start []) start = some f0 →
      find_endG tr sl start fuel s = some k →
      ((0 ≤ k →
          (∃ F, frontierAfter tr sl fuel f0 (s.take (k + 1).toNat) = some F ∧ F ≠ []) ∧
          (∀ m, m ≤ s.length →
             (∃ F, frontierAfter tr sl fuel f0 (s.take m) = some F ∧ F ≠ []) →
             (m : Int) ≤ k + 1)) ∧
       (k = -1 ↔ (s = [] ∨
          (s ≠ [] ∧ frontierAfter tr sl fuel f0 (s.take 1) = some []) ∨
          (∃ F, frontierAfter tr sl fuel f0 s = some F ∧ F ≠ [] ∧
            any_match sl F = false)))) := by
  intro tr sl start fuel s k f0 heps h
  rw [find_endG, heps] at h
  dsimp only at h
  have hf0 : f0 ≠ [] :=
    List.ne_nil_of_mem (eps_mem sl fuel _ start f0 heps start (self_mem_insertS start []))
  have h0 : find_end_loop tr sl fuel f0 0 ((0 : Nat) : Int) s = some k := by
    simpa using h
  constructor
  · intro hk
    constructor
    · have := find_end_loop_viable tr sl fuel s f0 0 k hf0 h0 hk
      have harg : (k - ((0 : Nat) : Int) + 1).toNat = (k + 1).toNat := by push_cast; omega
      rw [harg] at this
      exact this
    · intro m hm hv
      have := find_end_loop_longest tr sl fuel s f0 0 k h0 hk m hm hv
      push_cast at this ⊢
      omega
  · cases s with
    | nil =>
        rw [find_end_loop] at h0
        split at h0 <;> cases h0
        · constructor
          · intro _; exact Or.inl rfl
          · intro _; decide
        · constructor
          · intro _; exact Or.inl rfl
          · intro _; rfl
    | cons c cs =>
        rw [find_end_loop] at h0
        cases hstep : frontier_step tr sl fuel f0 c with
        | none => rw [hstep] at h0; cases h0
        | some ns =>
            rw [hstep] at h0
            dsimp only at h0
            by_cases hns : ns = []
            · rw [if_pos hns] at h0
              cases h0
              constructor
              · intro _
                refine Or.inr (Or.inl ⟨List.cons_ne_nil c cs, ?_⟩)
                rw [List.take_succ_cons, List.take_zero, frontierAfter, hstep]
                dsimp only
                rw [hns]
                rfl
              · intro _
                omega
            · rw [if_neg hns] at h0
              have hcast : (((0 : Nat) : Int) + 1) = ((1 : Nat) : Int) := by norm_num
              rw [hcast] at h0
              have hiff := find_end_loop_neg_one tr sl fuel cs ns 1 k (le_refl 1) hns h0
              rw [hiff]
              constructor
              · intro ⟨F, hF, hFne, hFany⟩
                refine Or.inr (Or.inr ⟨F, ?_, hFne, hFany⟩)
                rw [frontierAfter, hstep]
                dsimp only
                exact hF
              · rintro (habs | ⟨_, hdies⟩ | ⟨F, hF, hFne, hFany⟩)
                · cases habs
                · rw [List.take_succ_cons, List.take_zero, frontierAfter, hstep] at hdies
                  dsimp only at hdies
                  rw [frontierAfter] at hdies
                  cases hdies
                  exact absurd rfl hns
                · refine ⟨F, ?_, hFne, hFany⟩
                  rw [frontierAfter, hstep] at hF
                  dsimp only at hF
                  exact hF

theorem c3_witness :
    (0 ≤ (0 : Int) →
        (∃ F, frontierAfter St.transition slAB 9 [0]
            ((['a', 'x'] : List Char).take ((0 : Int) + 1).toNat) = some F ∧ F ≠ []) ∧
        (∀ m, m ≤ (['a', 'x'] : List Char).length →
           (∃ F, frontierAfter St.transition slAB 9 [0]
               ((['a', 'x'] : List Char).take m) = some F ∧ F ≠ []) →
           (m : Int) ≤ (0 : Int) + 1)) ∧
    ((0 : Int) = -1 ↔ ((['a', 'x'] : List Char) = [] ∨
        ((['a', 'x'] : List Char) ≠ [] ∧
          frontierAfter St.transition slAB 9 [0] ((['a', 'x'] : List Char).take 1) = some []) ∨
        (∃ F, frontierAfter St.transition slAB 9 [0] ['a', 'x'] = some F ∧ F ≠ [] ∧
          any_match slAB F = false))) :=
  c3_amended_find_end_reports_viable_position St.transition slAB 0 9 ['a', 'x'] 0 [0]
    (by decide) (by decide)

/-- The two matcher loops run the very same frontier sequence, so they agree
(entered at counter `i ≥ 1`): `find_end` answering the final index means
`find` accepts, any smaller answer means `find` rejects. -/
theorem find_loops_agree (tr : St → Char → Option Nat) (sl : List St) (fuel : Nat) :
    ∀ cs states (i : Nat) (b : Bool) (k : Int),
      1 ≤ i →
      find_loop tr sl fuel states cs = some b →
      find_end_loop tr sl fuel states i (i : Int) cs = some k →
      ((k = (i : Int) + cs.length - 1 → b = true) ∧
       (k < (i : Int) + cs.length - 1 → b = false)) := by
  intro cs
  induction cs with
  | nil =>
      intro states i b k hi hb hk
      rw [find_loop] at hb
      cases hb
      rw [find_end_loop] at hk
      split at hk <;> cases hk
      · rename_i hany
        constructor
        · intro _; exact hany
        · intro hlt; simp at hlt
      · rename_i hany
        constructor
        · intro habs; simp at habs; omega
        · intro _; simpa using hany
  | cons c cs ih =>
      intro states i b k hi hb hk
      rw [find_loop] at hb
      rw [find_end_loop] at hk
      cases hstep : frontier_step tr sl fuel states c with
      | none => rw [hstep] at hb; cases hb
      | some ns =>
          rw [hstep] at hb hk
          dsimp only at hb hk
          by_cases hns : ns = []
          · rw [if_pos hns] at hb hk
            cases hb
            cases hk
            constructor
            · intro habs
              exfalso
              simp only [List.length_cons] at habs
              push_cast at habs
              omega
            · intro _; rfl
          · rw [if_neg hns] at hb hk
            have hcast : ((i : Int) + 1) = ((i + 1 : Nat) : Int) := by push_cast; ring
            rw [hcast] at hk
            have := ih ns (i + 1) b k (by omega) hb hk
            simp only [List.length_cons] at this ⊢
            push_cast at this ⊢
            exact ⟨fun he => this.1 (by omega), fun hl => this.2 (by omega)⟩

/-- C4 (counterexample): the agreement claimed between `find_end` and
`is_match` fails on the empty string.  For the automaton of pattern `a`,
`find_end("") = -1 = length("") - 1`, yet `is_match("")` is `false`. -/
theorem c4_counterexample_empty_string :
    parse ['a'] 9 = some (.ok ⟨0, slA⟩) ∧
    Regex.find_end ⟨0, slA⟩ 9 [] = some (-1) ∧
    ((-1 : Int) = (([] : List Char).length : Int) - 1) ∧
    Regex.find ⟨0, slA⟩ 9 [] = some false ∧
    findG St.transition slA 0 9 [] = some false := by
  decide

/-- C4 (amended): on every NON-empty string (and a shared transition
predicate — each pipeline's two matchers share theirs), whenever both
matchers finish, `find_end(s) = length(s) - 1` forces `is_match(s) = true`
and `find_end(s) < length(s) - 1` forces `is_match(s) = false`. -/
theorem c4_amended_agreement_on_nonempty :
    ∀ tr sl start fuel (s : List Char) (k : Int) (b : Bool),
      s ≠ [] →
      find_endG tr sl start fuel s = some k →
      findG tr sl start fuel s = some b →
      ((k = (s.length : Int) - 1 → b = true) ∧
       (k < (s.length : Int) - 1 → b = false)) := by
  intro tr sl start fuel s k b hne hk hb
  rw [find_endG] at hk
  rw [findG] at hb
  cases heps : epsilon_transition sl fuel (insertS start []) start with
  | none => rw [heps] at hk; cases hk
  | some f0 =>
      rw [heps] at hk hb
      dsimp only at hk hb
      cases s with
      | nil => exact absurd rfl hne
      | cons c cs =>
          rw [find_end_loop] at hk
          rw [find_loop] at hb
          cases hstep : frontier_step tr sl fuel f0 c with
          | none => rw [hstep] at hb; cases hb
          | some ns =>
              rw [hstep] at hk hb
              dsimp only at hk hb
              by_cases hns : ns = []
              · rw [if_pos hns] at hk hb
                cases hk
                cases hb
                constructor
                · intro habs
                  exfalso
                  simp only [List.length_cons] at habs
                  push_cast at habs
                  omega
                · intro _; rfl
              · rw [if_neg hns] at hk hb
                have hcast : (((0 : Nat) : Int) + 1) = ((1 : Nat) : Int) := by norm_num
                have hk1 : find_end_loop tr sl fuel ns 1 ((1 : Nat) : Int) cs = some k := by
                  rw [← hcast]
                  simpa using hk
                have := find_loops_agree tr sl fuel cs ns 1 b k (le_refl 1) hb hk1
                simp only [List.length_cons] at this ⊢
                push_cast at this ⊢
                exact ⟨fun he => this.1 (by omega), fun hl => this.2 (by omega)⟩

theorem c4_witness :
    (((0 : Int) = ((['a'] : List Char).length : Int) - 1 → true = true) ∧
     ((0 : Int) < ((['a'] : List Char).length : Int) - 1 → true = false)) :=
  c4_amended_agreement_on_nonempty St.transition slA 0 9 ['a'] 0 true
    (by decide) (by decide) (by decide)

end Rejects

namespace Rejects

/-! ## Arena lemmas -/

theorem getSt_append_lt (sl tl : List St) (i : Nat) (h : i < sl.length) :
    getSt (sl ++ tl) i = getSt sl i :=
  List.getD_append sl tl .Nil i h

theorem getSt_append_self (sl : List St) (s : St) :
    getSt (sl ++ [s]) sl.length = s := by
  rw [getSt, List.getD_append_right sl [s] .Nil sl.length (le_refl _)]
  simp

theorem getSt_oob {sl : List St} {i : Nat} (h : sl.length ≤ i) : getSt sl i = .Nil :=
  List.getD_eq_default sl .Nil h

theorem getSt_set (sl : List St) (f : Nat) (x : St) (i : Nat) :
    getSt (sl.set f x) i = if f = i ∧ f < sl.length then x else getSt sl i := by
  rw [getSt, getSt, List.getD_eq_getElem?_getD, List.getD_eq_getElem?_getD, List.getElem?_set]
  by_cases h1 : f = i
  · subst h1
    by_cases h2 : f < sl.length
    · simp [h2]
    · rw [List.getElem?_eq_none (by omega)]
      simp [h2]
  · simp [h1]

theorem set_out_not_unres (s : St) (t : Nat) : (s.set_out t).unres = false := by
  cases s <;> rfl

theorem set_out_ne_nil {s : St} (h : s ≠ .Nil) (t : Nat) : s.set_out t ≠ .Nil := by
  cases s with
  | Nil => exact absurd rfl h
  | Transition a b c => simp [St.set_out]
  | Split a b => simp [St.set_out]
  | Match => simp [St.set_out]

theorem length_link (sl : List St) (f t : Nat) :
    (StateList.link sl f t).length = sl.length := by
  rw [StateList.link]
  exact List.length_set sl f _

theorem getSt_link (sl : List St) (f t i : Nat) :
    getSt (StateList.link sl f t) i =
      if f = i ∧ f < sl.length then (getSt sl f).set_out t else getSt sl i := by
  rw [StateList.link, getSt_set]

theorem linkAll_nil (sl : List St) (t : Nat) : StateList.linkAll sl [] t = sl := rfl

theorem linkAll_cons (sl : List St) (d : Nat) (ds : List Nat) (t : Nat) :
    StateList.linkAll sl (d :: ds) t = StateList.linkAll (StateList.link sl d t) ds t := rfl

theorem length_linkAll (ds : List Nat) (sl : List St) (t : Nat) :
    (StateList.linkAll sl ds t).length = sl.length := by
  induction ds generalizing sl with
  | nil => rfl
  | cons d ds ih =>
      rw [linkAll_cons, ih (StateList.link sl d t), length_link]

theorem getSt_linkAll_not_mem {i : Nat} (ds : List Nat) (h : i ∉ ds) (sl : List St) (t : Nat) :
    getSt (StateList.linkAll sl ds t) i = getSt sl i := by
  induction ds generalizing sl with
  | nil => rfl
  | cons d ds ih =>
      rw [linkAll_cons, ih (fun hm => h (List.mem_cons_of_mem d hm)) (StateList.link sl d t)]
      rw [getSt_link]
      have hne : ¬(d = i ∧ d < sl.length) := fun ⟨he, _⟩ => h (he ▸ List.mem_cons_self d ds)
      rw [if_neg hne]

theorem unres_link {sl : List St} {f t i : Nat}
    (h : (getSt (StateList.link sl f t) i).unres = true) :
    (getSt sl i).unres = true ∧ ¬(f = i ∧ f < sl.length) := by
  rw [getSt_link] at h
  by_cases hc : f = i ∧ f < sl.length
  · rw [if_pos hc, set_out_not_unres] at h
    cases h
  · rw [if_neg hc] at h
    exact ⟨h, hc⟩

theorem unres_linkAll {i : Nat} (ds : List Nat) (sl : List St) (t : Nat)
    (h : (getSt (StateList.linkAll sl ds t) i).unres = true) :
    (getSt sl i).unres = true ∧ (i ∈ ds → ¬ i < sl.length) := by
  induction ds generalizing sl with
  | nil => exact ⟨h, fun hm => absurd hm (List.not_mem_nil i)⟩
  | cons d ds ih =>
      rw [linkAll_cons] at h
      have h1 := ih (StateList.link sl d t) h
      have h2 := unres_link h1.1
      refine ⟨h2.1, ?_⟩
      intro hm hlt
      rcases List.mem_cons.mp hm with he | hm2
      · exact h2.2 ⟨he.symm, he ▸ hlt⟩
      · exact (h1.2 hm2) (by rw [length_link]; exact hlt)

theorem ne_nil_link {sl : List St} {f t : Nat}
    (h : ∀ j, j < sl.length → getSt sl j ≠ .Nil) :
    ∀ j, j < sl.length → getSt (StateList.link sl f t) j ≠ .Nil := by
  intro j hj
  rw [getSt_link]
  by_cases hc : f = j ∧ f < sl.length
  · rw [if_pos hc]
    exact set_out_ne_nil (h f hc.2) t
  · rw [if_neg hc]
    exact h j hj

theorem ne_nil_linkAll (ds : List Nat) (sl : List St) (t : Nat)
    (h : ∀ j, j < sl.length → getSt sl j ≠ .Nil) :
    ∀ j, j < sl.length → getSt (StateList.linkAll sl ds t) j ≠ .Nil := by
  induction ds generalizing sl with
  | nil => exact h
  | cons d ds ih =>
      intro j hj
      rw [linkAll_cons]
      refine ih (StateList.link sl d t) ?_ j ?_
      · intro j2 hj2
        rw [length_link] at hj2
        exact ne_nil_link h j2 hj2
      · rw [length_link]
        exact hj

/-- After linking every listed dangler, any in-range listed slot is resolved. -/
theorem resolved_linkAll {i : Nat} (ds : List Nat) (sl : List St) (t : Nat)
    (hm : i ∈ ds) (hi : i < sl.length) :
    (getSt (StateList.linkAll sl ds t) i).unres = false := by
  by_cases h : (getSt (StateList.linkAll sl ds t) i).unres = true
  · exact absurd hi ((unres_linkAll ds sl t h).2 hm)
  · simpa using h

/-! ## Parser-state lemmas -/

theorem next_errors (p : PS) : ((PS.next p).2).errors = p.errors := by
  rw [PS.next]
  cases p.input <;> rfl

theorem next_index (p : PS) : ((PS.next p).2).index = p.index := by
  rw [PS.next]
  cases p.input <;> rfl

theorem consume_errors (p : PS) : ((PS.consume p).2).errors = p.errors := by
  rw [PS.consume, next_errors]

theorem error_next_errors (p : PS) : (PS.error_next p).errors = p.errors ++ [p.index] := by
  rw [PS.error_next, next_errors]

theorem error_cur_errors (p : PS) : (PS.error_cur p).errors = p.errors ++ [p.index] := rfl

theorem append_singleton_ne (l : List Nat) (x : Nat) : l ++ [x] ≠ l := by
  intro h
  have := congrArg List.length h
  simp at this

theorem append_eq_self {l d : List Nat} (h : l ++ d = l) : d = [] := by
  have h2 := congrArg List.length h
  rw [List.length_append] at h2
  have h3 : d.length = 0 := by omega
  exact List.length_eq_zero.mp h3

end Rejects

namespace Rejects

/-! ## The parser invariant

`RunOK rule p sl res p2 sl2` collects what one grammar production call
guarantees: errors only accumulate, the arena only grows and old entries are
only ever patched by the caller itself (never by a sibling), a returned
fragment's danglers lie in the freshly created region, an error-free call
leaves no unresolved slot outside the returned danglers, `Nil` is never
created, and the four value-producing productions never return "no fragment"
without recording an error. -/
structure RunOK (rule : Rule) (p : PS) (sl : List St) (res : Option Fragment)
    (p2 : PS) (sl2 : List St) : Prop where
  errs_mono : ∃ d, p2.errors = p.errors ++ d
  len_mono : sl.length ≤ sl2.length
  old_pres : ∀ i, i < sl.length → getSt sl2 i = getSt sl i
  ends_new : ∀ f, res = some f → ∀ e, e ∈ f.endstates → sl.length ≤ e ∧ e < sl2.length
  clean_none : p2.errors = p.errors → res = none → sl2 = sl
  clean_unres : p2.errors = p.errors → ∀ f, res = some f → ∀ i, i < sl2.length →
      (getSt sl2 i).unres = true →
      (i < sl.length ∧ (getSt sl i).unres = true) ∨ i ∈ f.endstates
  no_nil : (∀ i, i < sl.length → getSt sl i ≠ .Nil) →
      ∀ i, i < sl2.length → getSt sl2 i ≠ .Nil
  none_err : (rule = .union ∨ rule = .concat ∨ rule = .unary ∨ rule = .paren) →
      res = none → p2.errors ≠ p.errors

theorem RunOK.error_next_none (rule : Rule) (p : PS) (sl : List St) :
    RunOK rule p sl none (p.error_next) sl where
  errs_mono := ⟨[p.index], error_next_errors p⟩
  len_mono := le_refl _
  old_pres := fun _ _ => rfl
  ends_new := fun f hf => by cases hf
  clean_none := fun _ _ => rfl
  clean_unres := fun _ f hf => by cases hf
  no_nil := fun h => h
  none_err := fun _ _ => by
    rw [error_next_errors]
    exact append_singleton_ne _ _

theorem RunOK.none_grew (rule : Rule) {p q : PS} (sl : List St) (x : Nat) (d : List Nat)
    (he : q.errors = p.errors ++ x :: d) : RunOK rule p sl none q sl where
  errs_mono := ⟨x :: d, he⟩
  len_mono := le_refl _
  old_pres := fun _ _ => rfl
  ends_new := fun f hf => by cases hf
  clean_none := fun heq _ => rfl
  clean_unres := fun _ f hf => by cases hf
  no_nil := fun h => h
  none_err := fun _ _ heq => by
    rw [he] at heq
    exact absurd (append_eq_self heq) (by simp)

theorem RunOK.stay_none (rule : Rule)
    (hrule : ¬(rule = .union ∨ rule = .concat ∨ rule = .unary ∨ rule = .paren))
    (p : PS) (sl : List St) : RunOK rule p sl none p sl where
  errs_mono := ⟨[], by simp⟩
  len_mono := le_refl _
  old_pres := fun _ _ => rfl
  ends_new := fun f hf => by cases hf
  clean_none := fun _ _ => rfl
  clean_unres := fun _ f hf => by cases hf
  no_nil := fun h => h
  none_err := fun hr _ => absurd hr hrule

theorem RunOK.leaf (rule : Rule) (p p2 : PS) (sl : List St) (st : St) (hst : st ≠ .Nil)
    (he : p2.errors = p.errors) :
    RunOK rule p sl (some ⟨sl.length, [sl.length]⟩) p2 (sl ++ [st]) where
  errs_mono := ⟨[], by simp [he]⟩
  len_mono := by simp
  old_pres := fun i hi => getSt_append_lt sl [st] i hi
  ends_new := fun f hf e hme => by
    cases hf
    simp only [List.mem_singleton] at hme
    subst hme
    exact ⟨le_refl _, by simp⟩
  clean_none := fun _ h => by cases h
  clean_unres := fun _ f hf i hi hu => by
    cases hf
    by_cases hil : i < sl.length
    · left
      rw [getSt_append_lt sl [st] i hil] at hu
      exact ⟨hil, hu⟩
    · right
      have hieq : i = sl.length := by
        simp only [List.length_append, List.length_singleton] at hi
        omega
      simp [hieq]
  no_nil := fun h i hi => by
    by_cases hil : i < sl.length
    · rw [getSt_append_lt sl [st] i hil]
      exact h i hil
    · have hieq : i = sl.length := by
        simp only [List.length_append, List.length_singleton] at hi
        omega
      subst hieq
      rw [getSt_append_self]
      exact hst
  none_err := fun _ h => by cases h

/-- `class_loop` only pushes the single error offset `idx`, and only on the
failure paths. -/
theorem class_loop_errs (idx : Nat) :
    ∀ n input, input.length ≤ n → ∀ errs chars res rest errs2,
      class_loop idx errs chars input = (res, rest, errs2) →
      (res = none → errs2 = errs ++ [idx]) ∧ (∀ x, res = some x → errs2 = errs) := by
  intro n
  induction n with
  | zero =>
      intro input hlen errs chars res rest errs2 h
      have hi : input = [] := List.length_eq_zero.mp (Nat.le_zero.mp hlen)
      subst hi
      rw [class_loop.eq_def] at h
      dsimp only at h
      cases h
      exact ⟨fun _ => rfl, fun x hx => nomatch hx⟩
  | succ n ih =>
      intro input hlen errs chars res rest errs2 h
      cases input with
      | nil =>
          rw [class_loop.eq_def] at h
          dsimp only at h
          cases h
          exact ⟨fun _ => rfl, fun x hx => nomatch hx⟩
      | cons c cs =>
          rw [class_loop.eq_def] at h
          dsimp only at h
          simp only [List.length_cons] at hlen
          by_cases h1 : c = ']'
          · rw [if_pos h1] at h
            cases h
            exact ⟨fun hn => (nomatch hn), fun x _ => rfl⟩
          · rw [if_neg h1] at h
            by_cases h2 : c = '\\'
            · rw [if_pos h2] at h
              cases cs with
              | nil =>
                  cases h
                  exact ⟨fun _ => rfl, fun x hx => nomatch hx⟩
              | cons e r2 =>
                  dsimp only at h
                  by_cases h3 : e = ']'
                  · rw [if_pos h3] at h
                    exact ih r2 (by simp only [List.length_cons] at hlen; omega) _ _ _ _ _ h
                  · rw [if_neg h3] at h
                    by_cases h4 : e = '\\'
                    · rw [if_pos h4] at h
                      exact ih r2 (by simp only [List.length_cons] at hlen; omega) _ _ _ _ _ h
                    · rw [if_neg h4] at h
                      cases h
                      exact ⟨fun _ => rfl, fun x hx => nomatch hx⟩
            · rw [if_neg h2] at h
              exact ih cs (by omega) _ _ _ _ _ h

/-- `parse_term` satisfies the production invariant (stated with the `.union`
tag since, like the four value-producing productions, it always records an
error when it fails to return a fragment). -/
theorem parse_term_ok {p : PS} {sl : List St} {res : Option Fragment} {p2 : PS} {sl2 : List St}
    (h : parse_term p sl = (res, p2, sl2)) : RunOK .union p sl res p2 sl2 := by
  rw [parse_term] at h
  cases hp : p.peek with
  | none =>
      rw [hp] at h
      cases h
      exact RunOK.error_next_none _ p sl
  | some c =>
      rw [hp] at h
      dsimp only at h
      by_cases h1 : c = '(' ∨ c = ')' ∨ c = '*' ∨ c = '?' ∨ c = '+' ∨ c = '|'
      · rw [if_pos h1] at h
        cases h
        exact RunOK.error_next_none _ p sl
      · rw [if_neg h1] at h
        by_cases h2 : c = '\\'
        · rw [if_pos h2] at h
          rcases hnx : PS.next ((PS.consume p).2) with ⟨nc, q⟩
          rw [hnx] at h
          have hq : q.errors = p.errors := by
            have : q = (PS.next ((PS.consume p).2)).2 := by rw [hnx]
            rw [this, next_errors, consume_errors]
          dsimp only at h
          cases nc with
          | none =>
              dsimp only at h
              cases h
              exact RunOK.none_grew _ sl _ [] (by rw [error_cur_errors, hq])
          | some e =>
              dsimp only [StateList.characters, StateList.non_characters,
                StateList.character, StateList.add_state] at h
              by_cases e0 : e = 'w'
              · rw [if_pos e0] at h
                cases h
                exact RunOK.leaf _ p _ sl _ (fun hh => nomatch hh) hq
              · rw [if_neg e0] at h
                by_cases e1 : e = 'W'
                · rw [if_pos e1] at h
                  cases h
                  exact RunOK.leaf _ p _ sl _ (fun hh => nomatch hh) hq
                · rw [if_neg e1] at h
                  by_cases e2 : e = 'd'
                  · rw [if_pos e2] at h
                    cases h
                    exact RunOK.leaf _ p _ sl _ (fun hh => nomatch hh) hq
                  · rw [if_neg e2] at h
                    by_cases e3 : e = 'D'
                    · rw [if_pos e3] at h
                      cases h
                      exact RunOK.leaf _ p _ sl _ (fun hh => nomatch hh) hq
                    · rw [if_neg e3] at h
                      by_cases e4 : e = 's'
                      · rw [if_pos e4] at h
                        cases h
                        exact RunOK.leaf _ p _ sl _ (fun hh => nomatch hh) hq
                      · rw [if_neg e4] at h
                        by_cases e5 : e = 'S'
                        · rw [if_pos e5] at h
                          cases h
                          exact RunOK.leaf _ p _ sl _ (fun hh => nomatch hh) hq
                        · rw [if_neg e5] at h
                          by_cases e6 : e = '*'
                          · rw [if_pos e6] at h
                            cases h
                            exact RunOK.leaf _ p _ sl _ (fun hh => nomatch hh) hq
                          · rw [if_neg e6] at h
                            by_cases e7 : e = '+'
                            · rw [if_pos e7] at h
                              cases h
                              exact RunOK.leaf _ p _ sl _ (fun hh => nomatch hh) hq
                            · rw [if_neg e7] at h
                              by_cases e8 : e = '\\'
                              · rw [if_pos e8] at h
                                cases h
                                exact RunOK.leaf _ p _ sl _ (fun hh => nomatch hh) hq
                              · rw [if_neg e8] at h
                                by_cases e9 : e = '('
                                · rw [if_pos e9] at h
                                  cases h
                                  exact RunOK.leaf _ p _ sl _ (fun hh => nomatch hh) hq
                                · rw [if_neg e9] at h
                                  by_cases e10 : e = ')'
                                  · rw [if_pos e10] at h
                                    cases h
                                    exact RunOK.leaf _ p _ sl _ (fun hh => nomatch hh) hq
                                  · rw [if_neg e10] at h
                                    by_cases e11 : e = '.'
                                    · rw [if_pos e11] at h
                                      cases h
                                      exact RunOK.leaf _ p _ sl _ (fun hh => nomatch hh) hq
                                    · rw [if_neg e11] at h
                                      cases h
                                      exact RunOK.none_grew _ sl _ [] (by rw [error_cur_errors, hq])
        · rw [if_neg h2] at h
          by_cases h3 : c = '['
          · rw [if_pos h3] at h
            have hne : ¬(some c = some ('^' : Char)) := by rw [h3]; decide
            rw [if_neg hne] at h
            dsimp only at h
            rcases hcl : class_loop p.index p.errors [] p.input with ⟨cres, crest, cerrs⟩
            rw [hcl] at h
            dsimp only at h
            have hclok := class_loop_errs p.index p.input.length p.input (le_refl _)
              p.errors [] cres crest cerrs hcl
            cases cres with
            | none =>
                dsimp only at h
                cases h
                exact RunOK.none_grew _ sl p.index [] (hclok.1 rfl)
            | some chars =>
                dsimp only at h
                dsimp only [StateList.characters, StateList.add_state] at h
                cases h
                exact RunOK.leaf _ p _ sl _ (fun hh => nomatch hh) (hclok.2 chars rfl)
          · rw [if_neg h3] at h
            dsimp only [StateList.character, StateList.characters, StateList.add_state] at h
            cases h
            exact RunOK.leaf _ p _ sl _ (fun hh => nomatch hh) (consume_errors p)

end Rejects

namespace Rejects

theorem errs_split {a b c : List Nat} (h1 : ∃ d, b = a ++ d) (h2 : ∃ d, c = b ++ d)
    (he : c = a) : b = a ∧ c = b := by
  obtain ⟨d1, hd1⟩ := h1
  obtain ⟨d2, hd2⟩ := h2
  rw [hd1] at hd2
  rw [hd2, List.append_assoc] at he
  have hde := append_eq_self he
  rcases List.append_eq_nil.mp hde with ⟨hde1, hde2⟩
  subst hde1
  subst hde2
  simp at hd1 hd2
  exact ⟨hd1, by rw [hd1, hd2]⟩

theorem parse_unaryop_errors (p : PS) : ((parse_unaryop p).2).errors = p.errors := by
  rw [parse_unaryop]
  cases hp : p.peek with
  | none => rfl
  | some c =>
      dsimp only
      by_cases hc : c = '?' ∨ c = '*' ∨ c = '+'
      · rw [if_pos hc]
        exact consume_errors p
      · rw [if_neg hc]

/-- Re-wrap a production invariant between enclosing states that only differ
by error-preserving moves (`consume`, re-tagging the rule). -/
theorem runok_wrap {r1 r2 : Rule} {p q p1 p2 : PS} {sl sl2 : List St} {res : Option Fragment}
    (hq : q.errors = p.errors) (hp2 : p2.errors = p1.errors)
    (hr : r1 = .union ∨ r1 = .concat ∨ r1 = .unary ∨ r1 = .paren)
    (h : RunOK r1 q sl res p1 sl2) : RunOK r2 p sl res p2 sl2 := by
  obtain ⟨d1, hd1⟩ := h.errs_mono
  have hkey : p2.errors = p.errors ++ d1 := by rw [hp2, hd1, hq]
  refine ⟨⟨d1, hkey⟩, h.len_mono, h.old_pres, h.ends_new, ?_, ?_, h.no_nil, ?_⟩
  · intro he hres
    have hd1e : d1 = [] := append_eq_self (hkey ▸ he)
    exact h.clean_none (by rw [hd1, hd1e, List.append_nil]) hres
  · intro he f hf i hi hu
    have hq1 : p1.errors = q.errors := by
      have hd1e : d1 = [] := append_eq_self (hkey ▸ he)
      rw [hd1, hd1e, List.append_nil]
    exact h.clean_unres hq1 f hf i hi hu
  · intro _ hres he
    have hd1e : d1 = [] := append_eq_self (hkey ▸ he)
    exact h.none_err hr hres (by rw [hd1, hd1e, List.append_nil])

/-- A production that ran a sub-production and then recorded one more error
offset returns "no fragment" with the sub-production's arena intact. -/
theorem runok_none_after {r1 r2 : Rule} {p q p1 p2 : PS} {sl sl2 : List St}
    {res0 : Option Fragment}
    (hq : q.errors = p.errors)
    (h : RunOK r1 q sl res0 p1 sl2) (x : Nat)
    (hp2 : p2.errors = p1.errors ++ [x]) : RunOK r2 p sl none p2 sl2 := by
  obtain ⟨d1, hd1⟩ := h.errs_mono
  have hkey : p2.errors = p.errors ++ (d1 ++ [x]) := by
    rw [hp2, hd1, hq, List.append_assoc]
  have hcontra : p2.errors = p.errors → False := by
    intro he
    have := append_eq_self (hkey ▸ he)
    simp at this
  refine ⟨⟨d1 ++ [x], hkey⟩, h.len_mono, h.old_pres, ?_, ?_, ?_, h.no_nil, ?_⟩
  · intro f hf
    cases hf
  · intro he _
    exact absurd he (fun hh => hcontra hh)
  · intro he f hf
    cases hf
  · intro _ _ he
    exact hcontra he

/-- `StateList::union` composed with the invariants of its two operand
productions. -/
theorem runok_union_comp {rl rr rout : Rule} {p p1 p2 : PS} {sl sl1 sl2 sl3 : List St}
    {l r res : Option Fragment}
    (hrl : rl = .union ∨ rl = .concat ∨ rl = .unary ∨ rl = .paren)
    (h1 : RunOK rl p sl l p1 sl1)
    (h2 : RunOK rr p1 sl1 r p2 sl2)
    (hu : StateList.union sl2 l r = (sl3, res)) :
    RunOK rout p sl res p2 sl3 := by
  obtain ⟨d1, hd1⟩ := h1.errs_mono
  obtain ⟨d2, hd2⟩ := h2.errs_mono
  have herr : p2.errors = p.errors ++ (d1 ++ d2) := by
    rw [hd2, hd1, List.append_assoc]
  cases l with
  | none =>
      dsimp only [StateList.union] at hu
      cases hu
      refine ⟨⟨d1 ++ d2, herr⟩, le_trans h1.len_mono h2.len_mono,
        fun i hi => (h2.old_pres i (lt_of_lt_of_le hi h1.len_mono)).trans (h1.old_pres i hi),
        ?_, ?_, ?_, fun hn => h2.no_nil (h1.no_nil hn), ?_⟩
      · intro f hf
        cases hf
      · intro he _
        have hs := errs_split ⟨d1, hd1⟩ ⟨d2, hd2⟩ he
        exact absurd hs.1 (h1.none_err hrl rfl)
      · intro he f hf
        cases hf
      · intro _ _ he
        have hs := errs_split ⟨d1, hd1⟩ ⟨d2, hd2⟩ he
        exact (h1.none_err hrl rfl) hs.1
  | some f1 =>
      cases r with
      | none =>
          dsimp only [StateList.union] at hu
          cases hu
          refine ⟨⟨d1 ++ d2, herr⟩, le_trans h1.len_mono h2.len_mono,
            fun i hi => (h2.old_pres i (lt_of_lt_of_le hi h1.len_mono)).trans (h1.old_pres i hi),
            ?_, ?_, ?_, fun hn => h2.no_nil (h1.no_nil hn), ?_⟩
          · intro f hf e he
            cases hf
            have hb := h1.ends_new f1 rfl e he
            exact ⟨hb.1, lt_of_lt_of_le hb.2 h2.len_mono⟩
          · intro _ hn
            cases hn
          · intro he f hf i hi hu2
            cases hf
            have hs := errs_split ⟨d1, hd1⟩ ⟨d2, hd2⟩ he
            have hsl : sl2 = sl1 := h2.clean_none hs.2 rfl
            rw [hsl] at hi hu2
            exact h1.clean_unres hs.1 f1 rfl i hi hu2
          · intro _ hn
            cases hn
      | some f2 =>
          dsimp only [StateList.union, StateList.add_state] at hu
          cases hu
          have hlen12 : sl.length ≤ sl2.length := le_trans h1.len_mono h2.len_mono
          refine ⟨⟨d1 ++ d2, herr⟩, ?_, ?_, ?_, ?_, ?_, ?_, ?_⟩
          · simp only [List.length_append, List.length_singleton]
            omega
          · intro i hi
            rw [getSt_append_lt _ _ i (lt_of_lt_of_le hi hlen12)]
            exact (h2.old_pres i (lt_of_lt_of_le hi h1.len_mono)).trans (h1.old_pres i hi)
          · intro f hf e he
            cases hf
            dsimp only at he
            rcases List.mem_append.mp he with hm | hm
            · have hb := h1.ends_new f1 rfl e hm
              refine ⟨hb.1, ?_⟩
              simp only [List.length_append, List.length_singleton]
              have := lt_of_lt_of_le hb.2 h2.len_mono
              omega
            · have hb := h2.ends_new f2 rfl e hm
              refine ⟨le_trans h1.len_mono hb.1, ?_⟩
              simp only [List.length_append, List.length_singleton]
              omega
          · intro _ hn
            cases hn
          · intro he f hf i hi hu2
            cases hf
            have hs := errs_split ⟨d1, hd1⟩ ⟨d2, hd2⟩ he
            simp only [List.length_append, List.length_singleton] at hi
            by_cases hil : i < sl2.length
            · rw [getSt_append_lt _ _ i hil] at hu2
              rcases h2.clean_unres hs.2 f2 rfl i hil hu2 with ⟨hi1, hu1⟩ | hm
              · rcases h1.clean_unres hs.1 f1 rfl i hi1 hu1 with hold | hm1
                · exact Or.inl hold
                · exact Or.inr (List.mem_append_left _ hm1)
              · exact Or.inr (List.mem_append_right _ hm)
            · have hieq : i = sl2.length := by omega
              subst hieq
              rw [getSt_append_self] at hu2
              simp [St.unres] at hu2
          · intro hn i hi
            simp only [List.length_append, List.length_singleton] at hi
            by_cases hil : i < sl2.length
            · rw [getSt_append_lt _ _ i hil]
              exact h2.no_nil (h1.no_nil hn) i hil
            · have hieq : i = sl2.length := by omega
              subst hieq
              rw [getSt_append_self]
              exact fun hh => nomatch hh
          · intro _ hn
            cases hn

/-- `StateList::concatenation` composed with the invariants of its two
operand productions. -/
theorem runok_concat_comp {rl rr rout : Rule} {p p1 p2 : PS} {sl sl1 sl2 sl3 : List St}
    {l r res : Option Fragment}
    (hrl : rl = .union ∨ rl = .concat ∨ rl = .unary ∨ rl = .paren)
    (h1 : RunOK rl p sl l p1 sl1)
    (h2 : RunOK rr p1 sl1 r p2 sl2)
    (hu : StateList.concatenation sl2 l r = (sl3, res)) :
    RunOK rout p sl res p2 sl3 := by
  obtain ⟨d1, hd1⟩ := h1.errs_mono
  obtain ⟨d2, hd2⟩ := h2.errs_mono
  have herr : p2.errors = p.errors ++ (d1 ++ d2) := by
    rw [hd2, hd1, List.append_assoc]
  cases l with
  | none =>
      dsimp only [StateList.concatenation] at hu
      cases hu
      refine ⟨⟨d1 ++ d2, herr⟩, le_trans h1.len_mono h2.len_mono,
        fun i hi => (h2.old_pres i (lt_of_lt_of_le hi h1.len_mono)).trans (h1.old_pres i hi),
        ?_, ?_, ?_, fun hn => h2.no_nil (h1.no_nil hn), ?_⟩
      · intro f hf
        cases hf
      · intro he _
        have hs := errs_split ⟨d1, hd1⟩ ⟨d2, hd2⟩ he
        exact absurd hs.1 (h1.none_err hrl rfl)
      · intro he f hf
        cases hf
      · intro _ _ he
        have hs := errs_split ⟨d1, hd1⟩ ⟨d2, hd2⟩ he
        exact (h1.none_err hrl rfl) hs.1
  | some f1 =>
      cases r with
      | none =>
          dsimp only [StateList.concatenation] at hu
          cases hu
          refine ⟨⟨d1 ++ d2, herr⟩, le_trans h1.len_mono h2.len_mono,
            fun i hi => (h2.old_pres i (lt_of_lt_of_le hi h1.len_mono)).trans (h1.old_pres i hi),
            ?_, ?_, ?_, fun hn => h2.no_nil (h1.no_nil hn), ?_⟩
          · intro f hf e he
            cases hf
            have hb := h1.ends_new f1 rfl e he
            exact ⟨hb.1, lt_of_lt_of_le hb.2 h2.len_mono⟩
          · intro _ hn
            cases hn
          · intro he f hf i hi hu2
            cases hf
            have hs := errs_split ⟨d1, hd1⟩ ⟨d2, hd2⟩ he
            have hsl : sl2 = sl1 := h2.clean_none hs.2 rfl
            rw [hsl] at hi hu2
            exact h1.clean_unres hs.1 f1 rfl i hi hu2
          · intro _ hn
            cases hn
      | some f2 =>
          dsimp only [StateList.concatenation] at hu
          cases hu
          have hlen12 : sl.length ≤ sl2.length := le_trans h1.len_mono h2.len_mono
          have hendsb : ∀ e, e ∈ f1.endstates → sl.length ≤ e ∧ e < sl1.length :=
            fun e he => h1.ends_new f1 rfl e he
          refine ⟨⟨d1 ++ d2, herr⟩, ?_, ?_, ?_, ?_, ?_, ?_, ?_⟩
          · rw [length_linkAll]
            exact hlen12
          · intro i hi
            have hnm : i ∉ f1.endstates := fun hm => by
              have := (hendsb i hm).1
              omega
            rw [getSt_linkAll_not_mem _ hnm]
            exact (h2.old_pres i (lt_of_lt_of_le hi h1.len_mono)).trans (h1.old_pres i hi)
          · intro f hf e he
            cases hf
            dsimp only at he
            have hb := h2.ends_new f2 rfl e he
            refine ⟨le_trans h1.len_mono hb.1, ?_⟩
            rw [length_linkAll]
            exact hb.2
          · intro _ hn
            cases hn
          · intro he f hf i hi hu2
            cases hf
            have hs := errs_split ⟨d1, hd1⟩ ⟨d2, hd2⟩ he
            rw [length_linkAll] at hi
            have hul := unres_linkAll f1.endstates sl2 f2.start hu2
            have hnm : i ∉ f1.endstates := fun hm => (hul.2 hm) hi
            rcases h2.clean_unres hs.2 f2 rfl i hi hul.1 with ⟨hi1, hu1⟩ | hm
            · rcases h1.clean_unres hs.1 f1 rfl i hi1 hu1 with hold | hm1
              · exact Or.inl hold
              · exact absurd hm1 hnm
            · exact Or.inr hm
          · intro hn i hi
            rw [length_linkAll] at hi
            exact ne_nil_linkAll _ sl2 _ (h2.no_nil (h1.no_nil hn)) i hi
          · intro _ hn
            cases hn

end Rejects

namespace Rejects

/-- The `sl1 ++ [Split _ none]` arena extension has no `Nil` if `sl1` has none. -/
theorem ne_nil_snoc (st : St) {sl1 : List St} (hst : st ≠ .Nil)
    (hn : ∀ j, j < sl1.length → getSt sl1 j ≠ .Nil) :
    ∀ j, j < (sl1 ++ [st]).length → getSt (sl1 ++ [st]) j ≠ .Nil := by
  intro j hj
  by_cases hjl : j < sl1.length
  · rw [getSt_append_lt _ _ j hjl]
    exact hn j hjl
  · have hjeq : j = sl1.length := by
      simp only [List.length_append, List.length_singleton] at hj
      omega
    subst hjeq
    rw [getSt_append_self]
    exact hst

/-- `StateList::unary_operator` composed with the invariant of the `PAREN`
production and `parse_unaryop` (which never touches errors or the arena). -/
theorem runok_unary_comp {rl rout : Rule} {p p1 pu : PS} {sl sl1 slu : List St}
    {l resu : Option Fragment} {op : Option Char}
    (hrl : rl = .union ∨ rl = .concat ∨ rl = .unary ∨ rl = .paren)
    (h1 : RunOK rl p sl l p1 sl1)
    (hop : parse_unaryop p1 = (op, pu))
    (hu : StateList.unary_operator sl1 l op = (slu, resu)) :
    RunOK rout p sl resu pu slu := by
  have hpe : pu.errors = p1.errors := by
    have hq : pu = (parse_unaryop p1).2 := by rw [hop]
    rw [hq]
    exact parse_unaryop_errors p1
  obtain ⟨d1, hd1⟩ := h1.errs_mono
  have herr : pu.errors = p.errors ++ d1 := by rw [hpe, hd1]
  cases l with
  | none =>
      dsimp only [StateList.unary_operator] at hu
      cases hu
      refine ⟨⟨d1, herr⟩, h1.len_mono, h1.old_pres, ?_, ?_, ?_, h1.no_nil, ?_⟩
      · intro f hf
        cases hf
      · intro he _
        have hd1e : d1 = [] := append_eq_self (herr ▸ he)
        exact h1.clean_none (by rw [hd1, hd1e, List.append_nil]) rfl
      · intro he f hf
        cases hf
      · intro _ _ he
        have hd1e : d1 = [] := append_eq_self (herr ▸ he)
        exact h1.none_err hrl rfl (by rw [hd1, hd1e, List.append_nil])
  | some frag =>
      have hendsb : ∀ e, e ∈ frag.endstates → sl.length ≤ e ∧ e < sl1.length :=
        fun e he => h1.ends_new frag rfl e he
      have hp1guard : pu.errors = p.errors → p1.errors = p.errors := by
        intro he
        have hd1e : d1 = [] := append_eq_self (herr ▸ he)
        rw [hd1, hd1e, List.append_nil]
      rw [StateList.unary_operator] at hu
      by_cases ho1 : op = some '*'
      · rw [if_pos ho1] at hu
        dsimp only [StateList.kleene, StateList.add_state] at hu
        cases hu
        refine ⟨⟨d1, herr⟩, ?_, ?_, ?_, ?_, ?_, ?_, ?_⟩
        · rw [length_linkAll]
          simp only [List.length_append, List.length_singleton]
          have := h1.len_mono
          omega
        · intro i hi
          have hnm : i ∉ frag.endstates := fun hm => by
            have := (hendsb i hm).1
            omega
          rw [getSt_linkAll_not_mem _ hnm,
            getSt_append_lt _ _ i (lt_of_lt_of_le hi h1.len_mono)]
          exact h1.old_pres i hi
        · intro f hf e he
          cases hf
          dsimp only at he
          simp only [List.mem_singleton] at he
          subst he
          refine ⟨h1.len_mono, ?_⟩
          rw [length_linkAll]
          simp
        · intro _ hn
          cases hn
        · intro he f hf i hi hu2
          cases hf
          have hb1 := hp1guard he
          rw [length_linkAll] at hi
          simp only [List.length_append, List.length_singleton] at hi
          by_cases him : i ∈ frag.endstates
          · have hie : i < sl1.length := (hendsb i him).2
            have hres := resolved_linkAll frag.endstates
              (sl1 ++ [.Split frag.start none]) sl1.length him
              (by simp only [List.length_append, List.length_singleton]; omega)
            rw [hu2] at hres
            cases hres
          · rw [getSt_linkAll_not_mem _ him] at hu2
            by_cases hil : i < sl1.length
            · rw [getSt_append_lt _ _ i hil] at hu2
              rcases h1.clean_unres hb1 frag rfl i hil hu2 with hold | hm1
              · exact Or.inl hold
              · exact absurd hm1 him
            · have hieq : i = sl1.length := by omega
              subst hieq
              right
              simp
        · intro hn i hi
          rw [length_linkAll] at hi
          exact ne_nil_linkAll _ _ _
            (ne_nil_snoc (.Split frag.start none) (fun hh => nomatch hh) (h1.no_nil hn)) i hi
        · intro _ hn
          cases hn
      · rw [if_neg ho1] at hu
        by_cases ho2 : op = some '?'
        · rw [if_pos ho2] at hu
          dsimp only [StateList.question_mark, StateList.add_state] at hu
          cases hu
          refine ⟨⟨d1, herr⟩, ?_, ?_, ?_, ?_, ?_, ?_, ?_⟩
          · simp only [List.length_append, List.length_singleton]
            have := h1.len_mono
            omega
          · intro i hi
            rw [getSt_append_lt _ _ i (lt_of_lt_of_le hi h1.len_mono)]
            exact h1.old_pres i hi
          · intro f hf e he
            cases hf
            dsimp only at he
            rcases List.mem_cons.mp he with he1 | he2
            · subst he1
              refine ⟨h1.len_mono, by simp⟩
            · have hb := hendsb e he2
              refine ⟨hb.1, ?_⟩
              simp only [List.length_append, List.length_singleton]
              omega
          · intro _ hn
            cases hn
          · intro he f hf i hi hu2
            cases hf
            have hb1 := hp1guard he
            simp only [List.length_append, List.length_singleton] at hi
            by_cases hil : i < sl1.length
            · rw [getSt_append_lt _ _ i hil] at hu2
              rcases h1.clean_unres hb1 frag rfl i hil hu2 with hold | hm1
              · exact Or.inl hold
              · exact Or.inr (List.mem_cons_of_mem _ hm1)
            · have hieq : i = sl1.length := by omega
              subst hieq
              exact Or.inr (List.mem_cons_self _ _)
          · intro hn
            exact ne_nil_snoc (.Split frag.start none) (fun hh => nomatch hh) (h1.no_nil hn)
          · intro _ hn
            cases hn
        · rw [if_neg ho2] at hu
          by_cases ho3 : op = some '+'
          · rw [if_pos ho3] at hu
            dsimp only [StateList.plus, StateList.add_state] at hu
            cases hu
            refine ⟨⟨d1, herr⟩, ?_, ?_, ?_, ?_, ?_, ?_, ?_⟩
            · rw [length_linkAll]
              simp only [List.length_append, List.length_singleton]
              have := h1.len_mono
              omega
            · intro i hi
              have hnm : i ∉ frag.endstates := fun hm => by
                have := (hendsb i hm).1
                omega
              rw [getSt_linkAll_not_mem _ hnm,
                getSt_append_lt _ _ i (lt_of_lt_of_le hi h1.len_mono)]
              exact h1.old_pres i hi
            · intro f hf e he
              cases hf
              dsimp only at he
              simp only [List.mem_singleton] at he
              subst he
              refine ⟨h1.len_mono, ?_⟩
              rw [length_linkAll]
              simp
            · intro _ hn
              cases hn
            · intro he f hf i hi hu2
              cases hf
              have hb1 := hp1guard he
              rw [length_linkAll] at hi
              simp only [List.length_append, List.length_singleton] at hi
              by_cases him : i ∈ frag.endstates
              · have hie : i < sl1.length := (hendsb i him).2
                have hres := resolved_linkAll frag.endstates
                  (sl1 ++ [.Split frag.start none]) sl1.length him
                  (by simp only [List.length_append, List.length_singleton]; omega)
                rw [hu2] at hres
                cases hres
              · rw [getSt_linkAll_not_mem _ him] at hu2
                by_cases hil : i < sl1.length
                · rw [getSt_append_lt _ _ i hil] at hu2
                  rcases h1.clean_unres hb1 frag rfl i hil hu2 with hold | hm1
                  · exact Or.inl hold
                  · exact absurd hm1 him
                · have hieq : i = sl1.length := by omega
                  subst hieq
                  right
                  simp
            · intro hn i hi
              rw [length_linkAll] at hi
              exact ne_nil_linkAll _ _ _
                (ne_nil_snoc (.Split frag.start none) (fun hh => nomatch hh) (h1.no_nil hn)) i hi
            · intro _ hn
              cases hn
          · rw [if_neg ho3] at hu
            cases hu
            refine ⟨⟨d1, herr⟩, h1.len_mono, h1.old_pres, ?_, ?_, ?_, h1.no_nil, ?_⟩
            · intro f hf e he
              cases hf
              exact hendsb e he
            · intro _ hn
              cases hn
            · intro he f hf i hi hu2
              cases hf
              exact h1.clean_unres (hp1guard he) frag rfl i hi hu2
            · intro _ hn
              cases hn

end Rejects

namespace Rejects

/-- Every finished call of any of the six recursive-descent productions
satisfies the production invariant `RunOK`. -/
theorem run_ok : ∀ fuel rule p sl res p2 sl2,
    run fuel rule p sl = some (res, p2, sl2) → RunOK rule p sl res p2 sl2 := by
  intro fuel
  induction fuel with
  | zero =>
      intro rule p sl res p2 sl2 h
      cases h
  | succ n ih =>
      intro rule p sl res p2 sl2 h
      cases rule with
      | union =>
          rw [run] at h
          cases hp : p.peek with
          | none =>
              rw [hp] at h
              cases h
              exact RunOK.error_next_none _ p sl
          | some c =>
              rw [hp] at h
              dsimp only at h
              by_cases h1 : c = ')' ∨ c = '*' ∨ c = '?' ∨ c = '+' ∨ c = '|'
              · rw [if_pos h1] at h
                cases h
                exact RunOK.error_next_none _ p sl
              · rw [if_neg h1] at h
                cases hnl : run n .concat p sl with
                | none => rw [hnl] at h; cases h
                | some t1 =>
                    rw [hnl] at h
                    rcases t1 with ⟨l, p1, sl1⟩
                    dsimp only at h
                    cases hnr : run n .unionP p1 sl1 with
                    | none => rw [hnr] at h; cases h
                    | some t2 =>
                        rw [hnr] at h
                        rcases t2 with ⟨r, pr, slr⟩
                        dsimp only at h
                        rcases hu : StateList.union slr l r with ⟨sl3, res3⟩
                        rw [hu] at h
                        dsimp only at h
                        cases h
                        exact runok_union_comp (Or.inr (Or.inl rfl))
                          (ih .concat p sl l p1 sl1 hnl) (ih .unionP p1 sl1 r _ slr hnr) hu
      | unionP =>
          rw [run] at h
          cases hp : p.peek with
          | none =>
              rw [hp] at h
              cases h
              exact RunOK.stay_none _ (by decide) p sl
          | some c =>
              rw [hp] at h
              dsimp only at h
              by_cases hc1 : c = ')'
              · rw [if_pos hc1] at h
                cases h
                exact RunOK.stay_none _ (by decide) p sl
              · rw [if_neg hc1] at h
                by_cases hc2 : c = '|'
                · rw [if_pos hc2] at h
                  exact runok_wrap (consume_errors p) rfl (Or.inl rfl)
                    (ih .union (p.consume).2 sl res p2 sl2 h)
                · rw [if_neg hc2] at h
                  cases h
                  exact RunOK.error_next_none _ p sl
      | concat =>
          rw [run] at h
          cases hp : p.peek with
          | none =>
              rw [hp] at h
              cases h
              exact RunOK.error_next_none _ p sl
          | some c =>
              rw [hp] at h
              dsimp only at h
              by_cases h1 : c = ')' ∨ c = '*' ∨ c = '?' ∨ c = '+' ∨ c = '|'
              · rw [if_pos h1] at h
                cases h
                exact RunOK.error_next_none _ p sl
              · rw [if_neg h1] at h
                cases hnl : run n .unary p sl with
                | none => rw [hnl] at h; cases h
                | some t1 =>
                    rw [hnl] at h
                    rcases t1 with ⟨l, p1, sl1⟩
                    dsimp only at h
                    cases hnr : run n .concatP p1 sl1 with
                    | none => rw [hnr] at h; cases h
                    | some t2 =>
                        rw [hnr] at h
                        rcases t2 with ⟨r, pr, slr⟩
                        dsimp only at h
                        rcases hu : StateList.concatenation slr l r with ⟨sl3, res3⟩
                        rw [hu] at h
                        dsimp only at h
                        cases h
                        exact runok_concat_comp (Or.inr (Or.inr (Or.inl rfl)))
                          (ih .unary p sl l p1 sl1 hnl) (ih .concatP p1 sl1 r _ slr hnr) hu
      | concatP =>
          rw [run] at h
          cases hp : p.peek with
          | none =>
              rw [hp] at h
              cases h
              exact RunOK.stay_none _ (by decide) p sl
          | some c =>
              rw [hp] at h
              dsimp only at h
              by_cases hc1 : c = ')' ∨ c = '|'
              · rw [if_pos hc1] at h
                cases h
                exact RunOK.stay_none _ (by decide) p sl
              · rw [if_neg hc1] at h
                by_cases hc2 : c = '*' ∨ c = '?' ∨ c = '+'
                · rw [if_pos hc2] at h
                  cases h
                  exact RunOK.error_next_none _ p sl
                · rw [if_neg hc2] at h
                  exact runok_wrap rfl rfl (Or.inr (Or.inl rfl))
                    (ih .concat p sl res p2 sl2 h)
      | unary =>
          rw [run] at h
          cases hp : p.peek with
          | none =>
              rw [hp] at h
              cases h
              exact RunOK.error_next_none _ p sl
          | some c =>
              rw [hp] at h
              dsimp only at h
              by_cases h1 : c = ')' ∨ c = '*' ∨ c = '?' ∨ c = '+' ∨ c = '|'
              · rw [if_pos h1] at h
                cases h
                exact RunOK.error_next_none _ p sl
              · rw [if_neg h1] at h
                cases hnl : run n .paren p sl with
                | none => rw [hnl] at h; cases h
                | some t1 =>
                    rw [hnl] at h
                    rcases t1 with ⟨l, p1, sl1⟩
                    dsimp only at h
                    rcases hop : parse_unaryop p1 with ⟨op, pu⟩
                    rw [hop] at h
                    dsimp only at h
                    rcases hu : StateList.unary_operator sl1 l op with ⟨slu, resu⟩
                    rw [hu] at h
                    dsimp only at h
                    cases h
                    exact runok_unary_comp (Or.inr (Or.inr (Or.inr rfl)))
                      (ih .paren p sl l p1 sl1 hnl) hop hu
      | paren =>
          rw [run] at h
          cases hp : p.peek with
          | none =>
              rw [hp] at h
              cases h
              exact RunOK.error_next_none _ p sl
          | some c =>
              rw [hp] at h
              dsimp only at h
              by_cases h1 : c = ')' ∨ c = '*' ∨ c = '?' ∨ c = '+' ∨ c = '|'
              · rw [if_pos h1] at h
                cases h
                exact RunOK.error_next_none _ p sl
              · rw [if_neg h1] at h
                by_cases h2 : c = '('
                · rw [if_pos h2] at h
                  cases hnl : run n .union (p.consume).2 sl with
                  | none => rw [hnl] at h; cases h
                  | some t1 =>
                      rw [hnl] at h
                      rcases t1 with ⟨frag, p1, sl1⟩
                      dsimp only at h
                      have hin := ih .union (p.consume).2 sl frag p1 sl1 hnl
                      cases hp1 : p1.peek with
                      | none =>
                          rw [hp1] at h
                          cases h
                          exact runok_none_after (consume_errors p) hin p1.index
                            (error_next_errors p1)
                      | some c2 =>
                          rw [hp1] at h
                          dsimp only at h
                          by_cases hc2 : c2 = ')'
                          · rw [if_pos hc2] at h
                            cases h
                            exact runok_wrap (consume_errors p) (consume_errors p1)
                              (Or.inl rfl) hin
                          · rw [if_neg hc2] at h
                            cases h
                            exact runok_none_after (consume_errors p) hin p1.index
                              (error_next_errors p1)
                · rw [if_neg h2] at h
                  rcases ht : parse_term p sl with ⟨rest, pt, slt⟩
                  rw [ht] at h
                  cases h
                  exact runok_wrap rfl rfl (Or.inl rfl) (parse_term_ok ht)

end Rejects

namespace Rejects

theorem c9_tail_err {E : List Nat} (hg : 0 < E.length) :
    ((∃ A, ParseResult.err E = .ok A) ↔ E = []) ∧
    (∀ es2, ParseResult.err E = .err es2 → es2 ≠ []) := by
  constructor
  · constructor
    · rintro ⟨A, hA⟩
      cases hA
    · intro he
      rw [he] at hg
      simp at hg
  · intro es2 he2
    cases he2
    intro hh
    rw [hh] at hg
    simp at hg

theorem c9_tail_ok {A : Regex} {E : List Nat} (hE : E = []) :
    ((∃ B, ParseResult.ok A = .ok B) ↔ E = []) ∧
    (∀ es2, ParseResult.ok A = .err es2 → es2 ≠ []) :=
  ⟨⟨fun _ => hE, fun _ => ⟨A, rfl⟩⟩, fun es2 he2 => nomatch he2⟩

/-- C9: for every pattern and every recursion allowance under which
`Parser::parse` finishes, it returns `Ok` exactly when its accumulated error
list is empty at the end of parsing (the second component of `parseFull`),
and whenever it returns `Err` the offset list is non-empty — the
`Err(Vec::new())` fallthrough in the source is unreachable, because a
production that yields no fragment always records an offset first. -/
theorem c9_parse_ok_iff_no_errors :
    ∀ s fuel r es, parseFull s fuel = some (r, es) →
      ((∃ A, r = .ok A) ↔ es = []) ∧ (∀ es2, r = .err es2 → es2 ≠ []) := by
  intro s fuel r es h
  rw [parseFull] at h
  cases hr : run fuel .union ⟨s, 0, []⟩ [] with
  | none =>
      rw [hr] at h
      cases h
  | some t1 =>
      rw [hr] at h
      rcases t1 with ⟨ores, p1, sl1⟩
      cases ores with
      | some frag =>
          dsimp only [StateList.add_state] at h
          rcases hnx : PS.next p1 with ⟨nx, pn⟩
          rw [hnx] at h
          dsimp only at h
          cases nx with
          | some ch =>
              dsimp only at h
              by_cases hg : 0 < (pn.error_next).errors.length
              · rw [if_pos hg] at h
                cases h
                exact c9_tail_err hg
              · rw [if_neg hg] at h
                cases h
                exact c9_tail_ok (List.eq_nil_of_length_eq_zero (by omega))
          | none =>
              dsimp only at h
              by_cases hg : 0 < pn.errors.length
              · rw [if_pos hg] at h
                cases h
                exact c9_tail_err hg
              · rw [if_neg hg] at h
                cases h
                exact c9_tail_ok (List.eq_nil_of_length_eq_zero (by omega))
      | none =>
          dsimp only at h
          rcases hnx : PS.next p1 with ⟨nx, pn⟩
          rw [hnx] at h
          dsimp only at h
          have hpn : pn.errors = p1.errors := by
            have hq : pn = (PS.next p1).2 := by rw [hnx]
            rw [hq, next_errors]
          have hne : p1.errors ≠ [] := by
            have hro := run_ok fuel .union ⟨s, 0, []⟩ [] none p1 sl1 hr
            exact hro.none_err (Or.inl rfl) rfl
          cases nx with
          | some ch =>
              dsimp only at h
              have hg : 0 < (pn.error_next).errors.length := by
                rw [error_next_errors]
                simp
              rw [if_pos hg] at h
              cases h
              exact c9_tail_err hg
          | none =>
              dsimp only at h
              have hg : 0 < pn.errors.length := by
                rw [hpn]
                cases hpe : p1.errors with
                | nil => exact absurd hpe hne
                | cons a l => simp
              rw [if_pos hg] at h
              cases h
              exact c9_tail_err hg

theorem c9_witness :
    ((∃ A, ParseResult.ok (⟨0, [.Transition ['a'] [] (some 1), .Match]⟩ : Regex) = .ok A) ↔
      ([] : List Nat) = []) ∧
    (∀ es2, ParseResult.ok (⟨0, [.Transition ['a'] [] (some 1), .Match]⟩ : Regex) = .err es2 →
      es2 ≠ []) :=
  c9_parse_ok_iff_no_errors ['a'] 9
    (.ok ⟨0, [.Transition ['a'] [] (some 1), .Match]⟩) [] (by decide)

/-- C10: in every automaton a successful parse returns, every state is fully
resolved — every `Transition.out` and every `Split.out2` is `some` — and no
state at all is `Nil` (hence none reachable from the start; `Split.out1` is a
plain `Nat` field, present by construction).  Sealing links the `Match` state
into every dangler, and the error-free invariant guarantees no unresolved
slot survives outside the final fragment's danglers. -/
theorem c10_sealed_automata_fully_resolved :
    ∀ s fuel A, parse s fuel = some (.ok A) →
      ∀ st, st ∈ A.statelist → st.unres = false ∧ st ≠ .Nil := by
  intro s fuel A h
  rw [parse] at h
  cases hf : parseFull s fuel with
  | none =>
      rw [hf] at h
      cases h
  | some t =>
      rw [hf] at h
      rcases t with ⟨r, es⟩
      dsimp only [Option.map] at h
      cases h
      rw [parseFull] at hf
      cases hr : run fuel .union ⟨s, 0, []⟩ [] with
      | none =>
          rw [hr] at hf
          cases hf
      | some t1 =>
          rw [hr] at hf
          rcases t1 with ⟨ores, p1, sl1⟩
          cases ores with
          | none =>
              dsimp only at hf
              rcases hnx : PS.next p1 with ⟨nx, pn⟩
              rw [hnx] at hf
              dsimp only at hf
              cases nx with
              | some ch =>
                  dsimp only at hf
                  by_cases hg : 0 < (pn.error_next).errors.length
                  · rw [if_pos hg] at hf
                    cases hf
                  · rw [if_neg hg] at hf
                    cases hf
              | none =>
                  dsimp only at hf
                  by_cases hg : 0 < pn.errors.length
                  · rw [if_pos hg] at hf
                    cases hf
                  · rw [if_neg hg] at hf
                    cases hf
          | some frag =>
              dsimp only [StateList.add_state] at hf
              rcases hnx : PS.next p1 with ⟨nx, pn⟩
              rw [hnx] at hf
              dsimp only at hf
              have hro := run_ok fuel .union ⟨s, 0, []⟩ [] (some frag) p1 sl1 hr
              have hpn : pn.errors = p1.errors := by
                have hq : pn = (PS.next p1).2 := by rw [hnx]
                rw [hq, next_errors]
              cases nx with
              | some ch =>
                  dsimp only at hf
                  have hg : 0 < (pn.error_next).errors.length := by
                    rw [error_next_errors]
                    simp
                  rw [if_pos hg] at hf
                  cases hf
              | none =>
                  dsimp only at hf
                  by_cases hg : 0 < pn.errors.length
                  · rw [if_pos hg] at hf
                    cases hf
                  · rw [if_neg hg] at hf
                    cases hf
                    have hp1e : p1.errors = [] := by
                      rw [← hpn]
                      exact List.eq_nil_of_length_eq_zero (by omega)
                    have hends := hro.ends_new frag rfl
                    have hclean := hro.clean_unres hp1e frag rfl
                    intro st hmem
                    have hmem2 : st ∈ StateList.linkAll (sl1 ++ [.Match]) frag.endstates
                        sl1.length := hmem
                    rcases List.mem_iff_getElem.mp hmem2 with ⟨i, hi, hst⟩
                    have hgetst : getSt (StateList.linkAll (sl1 ++ [.Match]) frag.endstates
                        sl1.length) i = st := by
                      rw [getSt, List.getD_eq_getElem _ .Nil hi, hst]
                    have hlen3 : (StateList.linkAll (sl1 ++ [.Match]) frag.endstates
                        sl1.length).length = sl1.length + 1 := by
                      rw [length_linkAll]
                      simp
                    rw [hlen3] at hi
                    constructor
                    · rw [← hgetst]
                      by_cases him : i ∈ frag.endstates
                      · exact resolved_linkAll frag.endstates (sl1 ++ [.Match]) sl1.length him
                          (by simp only [List.length_append, List.length_singleton]; omega)
                      · rw [getSt_linkAll_not_mem _ him]
                        by_cases hil : i < sl1.length
                        · rw [getSt_append_lt _ _ i hil]
                          by_cases hu2 : (getSt sl1 i).unres = true
                          · rcases hclean i hil hu2 with ⟨hi0, _⟩ | hm
                            · exact absurd hi0 (by simp)
                            · exact absurd hm him
                          · simpa using hu2
                        · have hieq : i = sl1.length := by omega
                          subst hieq
                          rw [getSt_append_self]
                          rfl
                    · rw [← hgetst]
                      refine ne_nil_linkAll _ _ _
                        (ne_nil_snoc .Match (fun hh => nomatch hh)
                          (hro.no_nil (fun j hj => absurd hj (by simp)))) i ?_
                      simp only [List.length_append, List.length_singleton]
                      omega

theorem c10_witness :
    St.unres (.Transition ['a'] [] (some 1)) = false ∧
    (.Transition ['a'] [] (some 1) : St) ≠ .Nil :=
  c10_sealed_automata_fully_resolved ['a'] 9 ⟨0, [.Transition ['a'] [] (some 1), .Match]⟩
    (by decide) (.Transition ['a'] [] (some 1)) (by decide)

end Rejects
